import Mathlib

/-!
Verification of the boundary-tag memory allocator in `src/p3Heap.c`.

The arena obtained from `mmap` is modelled as a word-addressed memory
`Mem : Nat → Nat`: the word at byte offset `b` from the base of the mapped
region (the value of `mmap_ptr`) is `m (b / 4)`.  All the C code's accesses
are 4-byte `int` loads and stores at 4-aligned offsets, so this is faithful.
The mapped region is page aligned, hence its base address is a multiple of 8
(indeed of the page size); consequently an absolute address `base + b` is a
multiple of 8 exactly when the byte offset `b` is, and pointers are modelled
by their byte offsets, with `none` standing for the C `NULL`.

`heap_start` sits at byte offset 4 (`(blockHeader*) mmap_ptr + 1`), and after
`alloc_size -= 8` the global `alloc_size` is `Heap.allocSize`, so `heap_end`
is byte offset `4 + allocSize` and the end mark (sentinel) lives there.

Nonnegative C `int` values are modelled as `Nat`; `x & ~0x3`, `x & ~0x1`,
`x & ~0x2` on a nonnegative `int` are `x - (x &&& 3)`, `x - (x &&& 1)`,
`x - (x &&& 2)`.  The best-fit search loop is modelled with explicit fuel;
`alloc` passes `allocSize / 8 + 1` which dominates the number of blocks of
any well-formed heap (every block has size at least 8).
-/

namespace P3Heap

/-- Word-addressed memory: argument is a word index (byte offset / 4). -/
abbrev Mem := Nat → Nat

/-- Read the 4-byte word at byte offset `b`. -/
def rd (m : Mem) (b : Nat) : Nat := m (b / 4)

/-- Write the 4-byte word at byte offset `b`. -/
def wr (m : Mem) (b : Nat) (v : Nat) : Mem := fun i => if i = b / 4 then v else m i

/-- Build a memory from a list of words (words beyond the list are 0,
matching the zero-filled `mmap` of `/dev/zero`). -/
def memOfList (l : List Nat) : Mem := fun i => l.getD i 0

/-- `x & ~0x3` for a nonnegative `int` `x`: the size bits of a header. -/
def sizeBits (x : Nat) : Nat := x - (x &&& 3)

/-- `x & ~0x1` for a nonnegative `int` `x`: clear the a-bit. -/
def andNot1 (x : Nat) : Nat := x - (x &&& 1)

/-- `x & ~0x2` for a nonnegative `int` `x`: clear the p-bit. -/
def andNot2 (x : Nat) : Nat := x - (x &&& 2)

/-- The heap state: the arena's words and the (already reduced by 8)
global `alloc_size`. -/
structure Heap where
  mem : Mem
  allocSize : Nat

/-- Result of the best-fit search loop in `alloc`: either the loop hit the
exact-match `return` inside the loop at block offset `off`, or it ran to the
end of the heap with the recorded best fit. -/
inductive ScanRes where
  | found (off : Nat)
  | done (bestFit : Option Nat)

/-- The best-fit search loop of `alloc` (`while` loop at p3Heap.c:132-168),
read-only: the exact-match branch's mutations and `return` are performed by
`alloc` on `found`.  `fuel` bounds the number of iterations. -/
def scan (m : Mem) (hEnd sz : Nat) : Nat → Nat → Option Nat → Nat → ScanRes
  | 0, _, bestFit, _ => ScanRes.done bestFit
  | fuel + 1, cur, bestFit, bestSize =>
    if cur < hEnd ∧ rd m cur ≠ 1 then
      let blockSize := sizeBits (rd m cur)
      let nextH := cur + blockSize
      if blockSize < sz then scan m hEnd sz fuel nextH bestFit bestSize
      else if (rd m cur) &&& 1 = 0 then
        if blockSize = sz then ScanRes.found cur
        else if sz ≤ blockSize ∧ blockSize < bestSize then
          scan m hEnd sz fuel nextH (some cur) blockSize
        else scan m hEnd sz fuel nextH bestFit bestSize
      else scan m hEnd sz fuel nextH bestFit bestSize
    else ScanRes.done bestFit

/-- The required block size: requested payload size plus 4 header bytes,
rounded up to the next multiple of 8 (p3Heap.c:117-122). -/
def reqSize (size : Int) : Nat :=
  let s := (size + 4).toNat
  if s % 8 ≠ 0 then s + (8 - s % 8) else s

/-- The exact-size-match branch of the search loop (p3Heap.c:148-156):
set the a-bit of `cur` and, unless it is at the heap end or already set,
the successor's p-bit. -/
def alloc_exact_branch (m : Mem) (hEnd cur : Nat) : Mem :=
  let blockSize := sizeBits (rd m cur)
  let nextH := cur + blockSize
  let m1 := wr m cur (rd m cur + 1)
  if nextH < hEnd ∧ (rd m1 nextH) &&& 2 = 0 then wr m1 nextH (rd m1 nextH + 2) else m1

/-- The split of the best-fit block (p3Heap.c:173-191): the low part of
`bestFit` becomes allocated with size `sz` (keeping the p-bit), the high
part becomes a free block with a footer. -/
def alloc_split_branch (m : Mem) (sz bestFit : Nat) : Mem :=
  let totalFreeSize := sizeBits (rd m bestFit)
  let bestFitSize := totalFreeSize - sz
  let m1 := wr m bestFit (sz + ((rd m bestFit) &&& 2) + 1)
  let bf2 := bestFit + sz
  let m2 := wr m1 (bf2 + bestFitSize - 4) bestFitSize
  wr m2 bf2 (bestFitSize ||| ((rd m2 bestFit) &&& 2))

/-- `alloc` (p3Heap.c:111-195).  Returns the payload byte offset (or `none`
for `NULL`) together with the new heap state. -/
def alloc (h : Heap) (size : Int) : Option Nat × Heap :=
  if size < 1 then (none, h) else
  let sz := reqSize size
  let hEnd := 4 + h.allocSize
  match scan h.mem hEnd sz (h.allocSize / 8 + 1) 4 none 2147483647 with
  | ScanRes.found cur =>
      (some (cur + 4), ⟨alloc_exact_branch h.mem hEnd cur, h.allocSize⟩)
  | ScanRes.done none => (none, h)
  | ScanRes.done (some bestFit) =>
      (some (bestFit + 4), ⟨alloc_split_branch h.mem sz bestFit, h.allocSize⟩)

/-- The mutation core of `free_block` after validation (p3Heap.c:229-263):
clear the a-bit, coalesce forward, coalesce backward.  Returns the new
memory, the surviving header's byte offset, and the merged size. -/
def free_core (m : Mem) (hd : Nat) : Mem × Nat × Nat :=
  let m1 := wr m hd (andNot1 (rd m hd))
  let ps0 := sizeBits (rd m1 hd)
  let nextH := hd + ps0
  let fm :=
    if (rd m1 nextH) &&& 1 = 0 then
      let ps := ps0 + sizeBits (rd m1 nextH)
      (wr m1 hd (ps ||| ((rd m1 hd) &&& 2)), ps)
    else (m1, ps0)
  let m2 := fm.1
  let ps1 := fm.2
  if (rd m2 hd) &&& 2 = 0 then
    let prevFooter := rd m2 (hd - 4)
    let prevHd := hd - prevFooter
    let ps2 := ps1 + prevFooter
    (wr m2 prevHd (ps2 ||| ((rd m2 prevHd) &&& 2)), prevHd, ps2)
  else (m2, hd, ps1)

/-- `free_block` (p3Heap.c:214-278).  The argument is the payload byte
offset (`none` for `NULL`); returns the C result code and the new heap. -/
def free_block (h : Heap) (ptr : Option Nat) : Int × Heap :=
  match ptr with
  | none => (-1, h)
  | some p =>
    if p % 8 ≠ 0 then (-1, h) else
    if p < 4 ∨ 4 + h.allocSize ≤ p then (-1, h) else
    if (rd h.mem (p - 4)) &&& 1 = 0 then (-1, h) else
    let r := free_core h.mem (p - 4)
    let m3 := r.1
    let hd3 := r.2.1
    let ps2 := r.2.2
    let nextH := hd3 + ps2
    let m4 := if sizeBits (rd m3 nextH) ≠ 0 then wr m3 nextH (andNot2 (rd m3 nextH)) else m3
    let m5 := if nextH - 4 < 4 + h.allocSize then wr m4 (nextH - 4) ps2 else m4
    (0, ⟨m5, h.allocSize⟩)

/-- `init_heap` (p3Heap.c:288-358), parameterized by the platform page size
(`getpagesize()`).  `none` models the failure return `-1`; the
`allocated_once` guard and an `mmap` denial are outside the model (the
claims concern a successful first call). -/
def init_heap (pagesize : Nat) (sizeOfRegion : Int) : Option Heap :=
  if sizeOfRegion ≤ 0 then none else
  let padsize := (pagesize - sizeOfRegion.toNat % pagesize) % pagesize
  let region := sizeOfRegion.toNat + padsize
  let allocSize := region - 8
  let m0 : Mem := fun _ => 0
  let m1 := wr m0 (4 + allocSize) 1
  let m2 := wr m1 4 allocSize
  let m3 := wr m2 4 (rd m2 4 + 2)
  let m4 := wr m3 (4 + allocSize - 4) allocSize
  some ⟨m4, allocSize⟩

/-! ## Abstract block lists

A heap is abstracted as a list of blocks (size and allocation status) laid
out from byte offset 4 up to the sentinel at `4 + allocSize`. -/

/-- An abstract block: total size in bytes and allocation status. -/
structure Blk where
  size : Nat
  alloc : Bool
deriving DecidableEq

/-- Total size of a block list. -/
def sumSz : List Blk → Nat
  | [] => 0
  | b :: bs => b.size + sumSz bs

/-- The allocation status of the block preceding the position after `bl`,
starting from incoming status `p`. -/
def outP : List Blk → Bool → Bool
  | [], p => p
  | b :: bs, _ => outP bs b.alloc

/-- `reprSeg m bl off p`: the blocks `bl` are laid out in `m` starting at
byte offset `off`, where the block before `off` has allocation status `p`.
Each block's header carries its size, the p-bit, and the a-bit; each free
block carries a footer with the raw size in its last 4 bytes. -/
def reprSeg (m : Mem) : List Blk → Nat → Bool → Bool
  | [], _, _ => true
  | b :: bs, off, p =>
      decide (b.size % 8 = 0) && decide (0 < b.size) &&
      decide (rd m off = b.size + 2 * p.toNat + b.alloc.toNat) &&
      (b.alloc || decide (rd m (off + b.size - 4) = b.size)) &&
      reprSeg m bs (off + b.size) b.alloc

/-- Byte offsets of the words constrained by `reprSeg`: every block's
header, and every free block's footer. -/
def fp : List Blk → Nat → List Nat
  | [], _ => []
  | b :: bs, off =>
      off :: (if b.alloc then fp bs (off + b.size)
              else (off + b.size - 4) :: fp bs (off + b.size))

/-- No two address-adjacent blocks are both free. -/
def noAdjB : List Blk → Bool
  | [] => true
  | [_] => true
  | a :: b :: bs => (a.alloc || b.alloc) && noAdjB (b :: bs)

/-- Well-formedness: `bl` is laid out from offset 4 with the first block's
p-bit set (the init convention), the sizes sum to `allocSize`, the sentinel
word at `4 + allocSize` is 1, and the heap is small enough that every block
size is below `INT_MAX`. -/
def wfB (h : Heap) (bl : List Blk) : Bool :=
  reprSeg h.mem bl 4 true && decide (sumSz bl = h.allocSize) &&
  decide (rd h.mem (4 + h.allocSize) = 1) && decide (4 + h.allocSize < 2147483647)

/-- Full invariant: well-formed and no two adjacent free blocks. -/
def invB (h : Heap) (bl : List Blk) : Bool := wfB h bl && noAdjB bl

/-- Modelled from the spec: the best-fit selection policy.  Scan the blocks
in address order; among the free blocks whose size is at least `sz`, keep
the one with the smallest size, a strictly smaller size replacing the
current best (so ties go to the first encountered).  Returns the chosen
block's byte offset and size. -/
def bestFitSpec (sz : Nat) : List Blk → Nat → Option (Nat × Nat) → Option (Nat × Nat)
  | [], _, best => best
  | b :: bs, off, best =>
      let best' :=
        if b.alloc = false ∧ sz ≤ b.size then
          match best with
          | none => some (off, b.size)
          | some pr => if b.size < pr.2 then some (off, b.size) else best
        else best
      bestFitSpec sz bs (off + b.size) best'

/-- The size of the free block that `release` produces before backward
coalescing: the released block plus, if free, its successor. -/
def fwdSz (b : Blk) (l2 : List Blk) : Nat :=
  b.size + (match l2 with | c :: _ => if c.alloc then 0 else c.size | [] => 0)

/-- The blocks after the released block once forward coalescing absorbed a
free successor. -/
def fwdTail (l2 : List Blk) : List Blk :=
  match l2 with | c :: cs => if c.alloc then c :: cs else cs | [] => []

/-- The abstract effect of a successful `release` of block `b` (between
`l1` and `l2`): mark it free, absorb a free successor, then absorb it into
a free predecessor. -/
def freeAbs (l1 : List Blk) (b : Blk) (l2 : List Blk) : List Blk :=
  match l1.getLast? with
  | some a => if a.alloc then l1 ++ ⟨fwdSz b l2, false⟩ :: fwdTail l2
              else l1.dropLast ++ ⟨a.size + fwdSz b l2, false⟩ :: fwdTail l2
  | none => ⟨fwdSz b l2, false⟩ :: fwdTail l2

/-! ## Reading the block chain out of a heap -/

/-- Walk the block chain: from `off`, step by each block's recorded size;
succeed exactly when the walk lands on `hEnd` and the word there is the
sentinel value 1.  Returns the `(offset, header)` pairs encountered. -/
def chainB (m : Mem) (hEnd : Nat) : Nat → Nat → Option (List (Nat × Nat))
  | 0, _ => none
  | fuel + 1, off =>
    if off = hEnd then (if rd m off = 1 then some [] else none)
    else if hEnd < off then none
    else
      let s := sizeBits (rd m off)
      if s = 0 then none
      else (chainB m hEnd fuel (off + s)).map (fun l => (off, rd m off) :: l)

/-- The chain-integrity check of the spec: walking from the arena start by
successive sizes lands exactly on the sentinel. -/
def chainOkB (h : Heap) : Bool :=
  (chainB h.mem (4 + h.allocSize) (h.allocSize / 8 + 1) 4).isSome

/-- Read off the chain: no two address-adjacent blocks are both free. -/
def chainNoAdjFreeB (h : Heap) : Bool :=
  match chainB h.mem (4 + h.allocSize) (h.allocSize / 8 + 1) 4 with
  | some l => noAdjB (l.map (fun ob => ⟨sizeBits ob.2, ob.2 &&& 1 = 1⟩))
  | none => false

/-- `p` is the payload offset of a currently allocated block of the chain:
the in-contract argument for `release` (spec section 4.4: any other
argument is undefined behavior). -/
def isAllocPayload (h : Heap) (p : Nat) : Bool :=
  match chainB h.mem (4 + h.allocSize) (h.allocSize / 8 + 1) 4 with
  | some l => l.any (fun ob => ob.1 + 4 = p && ob.2 &&& 1 = 1)
  | none => false

/-- The `(offset, header)` pairs of a block list as laid out in `m`. -/
def blkHdrs (m : Mem) : List Blk → Nat → List (Nat × Nat)
  | [], _ => []
  | b :: bs, off => (off, rd m off) :: blkHdrs m bs (off + b.size)

/-! ## Operation sequences -/

/-- One boundary operation. -/
inductive Op where
  | a (size : Int)
  | f (ptr : Option Nat)

/-- Run a sequence of operations. -/
def run (h : Heap) : List Op → Heap
  | [] => h
  | Op.a n :: ops => run (alloc h n).2 ops
  | Op.f p :: ops => run (free_block h p).2 ops

/-- The sequence respects the `release` contract: every `f` argument is the
payload of a block that is allocated at that point (spec section 4.4 makes
any other argument undefined behavior).  `alloc` arguments are
unconstrained. -/
def GoodSeq (h : Heap) : List Op → Prop
  | [] => True
  | Op.a n :: ops => GoodSeq (alloc h n).2 ops
  | Op.f p :: ops =>
      (∃ q, p = some q ∧ isAllocPayload h q = true) ∧ GoodSeq (free_block h p).2 ops

/-! ## Concrete instances

Small heaps used to instantiate the theorems: heaps produced by
`init_heap`, and hand-laid-out heaps whose free lists exercise the
best-fit policy. -/

/-- The heap of a first `init_heap 16 16` call: one 8-byte free block. -/
def H0 : Heap := (init_heap 16 16).getD ⟨fun _ => 0, 0⟩

/-- The heap of a first `init_heap 32 32` call: one 24-byte free block. -/
def G0 : Heap := (init_heap 32 32).getD ⟨fun _ => 0, 0⟩

/-- `G0` after one 1-byte allocation (8-byte block split off). -/
def G1 : Heap := (alloc G0 1).2

/-- `G1` after a second 1-byte allocation: blocks 8a, 8a, 8f. -/
def G2 : Heap := (alloc G1 1).2

/-- `G2` after releasing the middle block (payload offset 16): the released
block merges with its free successor and the merged block's end lands
exactly on the sentinel boundary. -/
def G3 : Heap := (free_block G2 (some 16)).2

/-- A heap holding free blocks of sizes 16, 40 and 24 (the spec's best-fit
instance). -/
def BF : Heap :=
  ⟨memOfList [0, 18, 0, 0, 16, 40, 0, 0, 0, 0, 0, 0, 0, 0, 40, 24, 0, 0, 0, 0, 24, 1], 80⟩

/-- `BF` without the 24-byte block: a fitting request must split the
40-byte block. -/
def BF2 : Heap := ⟨memOfList [0, 18, 0, 0, 16, 40, 0, 0, 0, 0, 0, 0, 0, 0, 40, 1], 56⟩

/-! ## Bit-level lemmas -/

theorem and_three (x : Nat) : x &&& 3 = x % 4 := by
  have h := Nat.and_pow_two_sub_one_eq_mod x 2
  norm_num at h
  exact h

theorem and_one (x : Nat) : x &&& 1 = x % 2 := Nat.and_one_is_mod x

theorem and_two_eq (x : Nat) : x &&& 2 = 2 * (x / 2 % 2) := by
  have h1 : ¬ ((x &&& 2) % 2 = 1) := by
    rw [Nat.and_mod_two_eq_one]
    omega
  have h2 : (x &&& 2) / 2 = x / 2 % 2 := by
    have h := Nat.and_div_two (a := x) (b := 2)
    norm_num at h
    exact h
  omega

theorem lor_two_eq {x : Nat} (hx : x % 4 = 0) : x ||| 2 = x + 2 := by
  have h1 : ¬ ((x ||| 2) % 2 = 1) := by
    rw [Nat.or_mod_two_eq_one]
    omega
  have h2 : (x ||| 2) / 2 = x / 2 ||| 1 := by
    rw [Nat.or_div_two]
  have h3 : (x / 2 ||| 1) % 2 = 1 := by
    rw [Nat.or_mod_two_eq_one]
    omega
  have h4 : (x / 2 ||| 1) / 2 = x / 2 / 2 := by
    rw [Nat.or_div_two]
    norm_num
  omega

theorem sizeBits_eq (x : Nat) : sizeBits x = x - x % 4 := by
  rw [sizeBits, and_three]

/-- Size bits of a well-formed header `s + bits` with `4 ∣ s`. -/
theorem sizeBits_val {s r : Nat} (hs : s % 4 = 0) (hr : r < 4) : sizeBits (s + r) = s := by
  rw [sizeBits_eq]
  omega

theorem andNot1_eq (x : Nat) : andNot1 x = x - x % 2 := by
  rw [andNot1, and_one]

theorem andNot2_eq (x : Nat) : andNot2 x = x - 2 * (x / 2 % 2) := by
  rw [andNot2, and_two_eq]

/-- The p-bit test on a well-formed header. -/
theorem and_two_val {s : Nat} (hs : s % 4 = 0) (p a : Bool) :
    (s + 2 * p.toNat + a.toNat) &&& 2 = 2 * p.toNat := by
  rw [and_two_eq]
  cases p <;> cases a <;> simp [Bool.toNat] <;> omega

/-- The a-bit test on a well-formed header. -/
theorem and_one_val {s : Nat} (hs : s % 4 = 0) (p a : Bool) :
    (s + 2 * p.toNat + a.toNat) &&& 1 = a.toNat := by
  rw [and_one]
  cases p <;> cases a <;> simp [Bool.toNat] <;> omega

/-- The size bits of a well-formed header. -/
theorem sizeBits_hdr {s : Nat} (hs : s % 4 = 0) (p a : Bool) :
    sizeBits (s + 2 * p.toNat + a.toNat) = s := by
  rw [sizeBits_eq]
  cases p <;> cases a <;> simp [Bool.toNat] <;> omega

/-! ## Memory read/write lemmas -/

theorem rd_wr_self (m : Mem) (b v : Nat) : rd (wr m b v) b = v := by
  simp [rd, wr]

theorem rd_wr_ne (m : Mem) (a b : Nat) {v : Nat} (h : b / 4 ≠ a / 4) :
    rd (wr m a v) b = rd m b := by
  simp [rd, wr, h]

/-- Distinct 4-aligned byte offsets address distinct words. -/
theorem div4_ne {a b : Nat} (ha : a % 4 = 0) (hb : b % 4 = 0) (h : a ≠ b) :
    a / 4 ≠ b / 4 := by
  omega

/-! ## Block-list layout lemmas -/

theorem sumSz_append (l1 l2 : List Blk) : sumSz (l1 ++ l2) = sumSz l1 + sumSz l2 := by
  induction l1 with
  | nil => simp [sumSz]
  | cons b bs ih => simp [sumSz, ih]; omega

theorem outP_append (l1 l2 : List Blk) (p : Bool) :
    outP (l1 ++ l2) p = outP l2 (outP l1 p) := by
  induction l1 generalizing p with
  | nil => simp [outP]
  | cons b bs ih => simp [outP, ih]

theorem reprSeg_cons {m : Mem} {b : Blk} {bs : List Blk} {off : Nat} {p : Bool} :
    reprSeg m (b :: bs) off p = true ↔
      b.size % 8 = 0 ∧ 0 < b.size ∧
      rd m off = b.size + 2 * p.toNat + b.alloc.toNat ∧
      (b.alloc = false → rd m (off + b.size - 4) = b.size) ∧
      reprSeg m bs (off + b.size) b.alloc = true := by
  cases hb : b.alloc <;> simp [reprSeg, hb, and_assoc]

theorem reprSeg_cons_mk {m : Mem} {s : Nat} {al : Bool} {bs : List Blk} {off : Nat}
    {p : Bool} :
    reprSeg m (⟨s, al⟩ :: bs) off p = true ↔
      s % 8 = 0 ∧ 0 < s ∧
      rd m off = s + 2 * p.toNat + al.toNat ∧
      (al = false → rd m (off + s - 4) = s) ∧
      reprSeg m bs (off + s) al = true := reprSeg_cons

theorem reprSeg_append {m : Mem} (l1 l2 : List Blk) (off : Nat) (p : Bool) :
    reprSeg m (l1 ++ l2) off p =
      (reprSeg m l1 off p && reprSeg m l2 (off + sumSz l1) (outP l1 p)) := by
  induction l1 generalizing off p with
  | nil => simp [reprSeg, sumSz, outP]
  | cons b bs ih =>
      simp only [List.cons_append, reprSeg, List.append_eq, ih, sumSz, outP,
        Bool.and_assoc, Nat.add_assoc]

theorem reprSeg_sumSz_mod8 {m : Mem} {bl : List Blk} {off : Nat} {p : Bool}
    (h : reprSeg m bl off p = true) : sumSz bl % 8 = 0 := by
  induction bl generalizing off p with
  | nil => simp [sumSz]
  | cons b bs ih =>
      rw [reprSeg_cons] at h
      have := ih h.2.2.2.2
      have := h.1
      simp only [sumSz]
      omega

/-- The membership structure of a footprint. -/
theorem mem_fp_cons {b : Blk} {bs : List Blk} {off a : Nat} :
    a ∈ fp (b :: bs) off ↔
      a = off ∨ (b.alloc = false ∧ a = off + b.size - 4) ∨ a ∈ fp bs (off + b.size) := by
  cases hb : b.alloc <;> simp [fp, hb]

/-- Every constrained word of a segment lies inside the segment. -/
theorem fp_bounds {m : Mem} {bl : List Blk} {off : Nat} {p : Bool}
    (h : reprSeg m bl off p = true) :
    ∀ a ∈ fp bl off, off ≤ a ∧ a + 4 ≤ off + sumSz bl ∧ a % 4 = off % 4 := by
  induction bl generalizing off p with
  | nil => simp [fp]
  | cons b bs ih =>
      rw [reprSeg_cons] at h
      obtain ⟨h8, hpos, _, _, hrest⟩ := h
      intro a ha
      rw [mem_fp_cons] at ha
      have hs : sumSz (b :: bs) = b.size + sumSz bs := rfl
      rcases ha with rfl | ⟨hb, rfl⟩ | ha
      · omega
      · omega
      · have := ih hrest a ha
        omega

/-- Layout only depends on the constrained words. -/
theorem reprSeg_frame {m m' : Mem} {bl : List Blk} {off : Nat} {p : Bool}
    (h : reprSeg m bl off p = true)
    (hag : ∀ a ∈ fp bl off, rd m' a = rd m a) :
    reprSeg m' bl off p = true := by
  induction bl generalizing off p with
  | nil => simp [reprSeg]
  | cons b bs ih =>
      rw [reprSeg_cons] at h ⊢
      obtain ⟨h8, hpos, hhdr, hftr, hrest⟩ := h
      refine ⟨h8, hpos, ?_, ?_, ?_⟩
      · rw [hag off (by rw [mem_fp_cons]; tauto), hhdr]
      · intro hb
        rw [hag (off + b.size - 4) (by rw [mem_fp_cons]; tauto)]
        exact hftr hb
      · refine ih hrest ?_
        intro a ha
        exact hag a (by rw [mem_fp_cons]; tauto)

/-- The layout determines the constrained words. -/
theorem reprSeg_det {m m' : Mem} {bl : List Blk} {off : Nat} {p : Bool}
    (h : reprSeg m bl off p = true) (h' : reprSeg m' bl off p = true) :
    ∀ a ∈ fp bl off, rd m' a = rd m a := by
  induction bl generalizing off p with
  | nil => simp [fp]
  | cons b bs ih =>
      rw [reprSeg_cons] at h h'
      obtain ⟨h8, hpos, hhdr, hftr, hrest⟩ := h
      obtain ⟨_, _, hhdr', hftr', hrest'⟩ := h'
      intro a ha
      rw [mem_fp_cons] at ha
      rcases ha with rfl | ⟨hb, rfl⟩ | ha
      · rw [hhdr, hhdr']
      · rw [hftr hb, hftr' hb]
      · exact ih hrest hrest' a ha

/-! ## The best-fit search -/

/-- Once an exactly-fitting block is recorded, the fold keeps it: no
fitting block is strictly smaller than `sz`. -/
theorem bestFitSpec_exact {sz : Nat} (bl : List Blk) :
    ∀ (off o : Nat), bestFitSpec sz bl off (some (o, sz)) = some (o, sz) := by
  induction bl with
  | nil => intro off o; rfl
  | cons b bs ih =>
      intro off o
      by_cases hfit : b.alloc = false ∧ sz ≤ b.size
      · simp only [bestFitSpec, if_pos hfit]
        rw [if_neg (by omega : ¬ b.size < sz)]
        exact ih _ _
      · simp only [bestFitSpec, if_neg hfit]
        exact ih _ _

/-- A block selected by the policy is a free, fitting block of the list
(unless it was already the incoming accumulator). -/
theorem bestFitSpec_mem {sz : Nat} (bl : List Blk) :
    ∀ (off : Nat) (acc : Option (Nat × Nat)) (o s : Nat),
    bestFitSpec sz bl off acc = some (o, s) →
    acc = some (o, s) ∨
    ∃ l1 b l2, bl = l1 ++ b :: l2 ∧ o = off + sumSz l1 ∧
      b.alloc = false ∧ b.size = s ∧ sz ≤ s := by
  induction bl with
  | nil => intro off acc o s h; left; exact h
  | cons b bs ih =>
      intro off acc o s h
      simp only [bestFitSpec] at h
      rcases ih (off + b.size) _ o s h with hacc | ⟨l1, c, l2, heq, ho, hc, hcs, hsz⟩
      · by_cases hfit : b.alloc = false ∧ sz ≤ b.size
        · rw [if_pos hfit] at hacc
          cases acc with
          | none =>
              rw [Option.some.injEq, Prod.mk.injEq] at hacc
              obtain ⟨rfl, rfl⟩ := hacc
              right
              exact ⟨[], b, bs, rfl, by simp [sumSz], hfit.1, rfl, hfit.2⟩
          | some pr =>
              have hacc2 : (if b.size < pr.2 then some (off, b.size) else some pr) =
                  some (o, s) := hacc
              by_cases hlt : b.size < pr.2
              · rw [if_pos hlt, Option.some.injEq, Prod.mk.injEq] at hacc2
                obtain ⟨rfl, rfl⟩ := hacc2
                right
                exact ⟨[], b, bs, rfl, by simp [sumSz], hfit.1, rfl, hfit.2⟩
              · rw [if_neg hlt] at hacc2
                left; exact hacc2
        · rw [if_neg hfit] at hacc
          left; exact hacc
      · right
        refine ⟨b :: l1, c, l2, by simp [heq], ?_, hc, hcs, hsz⟩
        have : sumSz (b :: l1) = b.size + sumSz l1 := rfl
        omega

/-- The search loop of `alloc` computes exactly the spec's best-fit
policy.  `acc` is the abstract accumulator corresponding to the loop's
`bestFit`/`bestSize` pair. -/
theorem scan_correct {m : Mem} {hEnd sz : Nat}
    (hmax : hEnd < 2147483647) (bl : List Blk) :
    ∀ (off : Nat) (p : Bool) (fuel : Nat) (bf : Option Nat) (bsz : Nat)
      (acc : Option (Nat × Nat)),
    reprSeg m bl off p = true →
    off + sumSz bl = hEnd →
    bl.length < fuel →
    (acc = none ∧ bf = none ∧ bsz = 2147483647 ∨
      ∃ o s, acc = some (o, s) ∧ bf = some o ∧ bsz = s ∧ sz < s) →
    scan m hEnd sz fuel off bf bsz =
      (match bestFitSpec sz bl off acc with
       | none => ScanRes.done none
       | some os => if os.2 = sz then ScanRes.found os.1
                    else ScanRes.done (some os.1)) := by
  induction bl with
  | nil =>
      intro off p fuel bf bsz acc hrep hsum hfuel hacc
      have hoff : off = hEnd := by
        have : sumSz ([] : List Blk) = 0 := rfl
        omega
      cases fuel with
      | zero => omega
      | succ fuel =>
          rw [scan, if_neg (by omega : ¬ (off < hEnd ∧ rd m off ≠ 1))]
          rcases hacc with ⟨rfl, rfl, rfl⟩ | ⟨o, s, rfl, rfl, hbsz, hlt⟩
          · rfl
          · simp only [bestFitSpec]
            simp [show s ≠ sz from by omega]
  | cons b bs ih =>
      intro off p fuel bf bsz acc hrep hsum hfuel hacc
      rw [reprSeg_cons] at hrep
      obtain ⟨h8, hpos, hhdr, hftr, hrest⟩ := hrep
      have hsum0 : sumSz (b :: bs) = b.size + sumSz bs := rfl
      have hsum' : (off + b.size) + sumSz bs = hEnd := by omega
      cases fuel with
      | zero => simp at hfuel
      | succ fuel =>
          have hfuel' : bs.length < fuel := by
            simp only [List.length_cons] at hfuel
            omega
          have hcond : off < hEnd ∧ rd m off ≠ 1 := by
            refine ⟨by omega, ?_⟩
            rw [hhdr]
            cases p <;> cases hba : b.alloc <;> simp [Bool.toNat] <;> omega
          have hsb : sizeBits (rd m off) = b.size := by
            rw [hhdr]
            exact sizeBits_hdr (by omega) p b.alloc
          have hone : rd m off &&& 1 = b.alloc.toNat := by
            rw [hhdr]
            exact and_one_val (by omega) p b.alloc
          have hbnd : b.size < 2147483647 := by omega
          rw [scan]
          simp only [hsb, if_pos hcond, hone]
          by_cases hlt : b.size < sz
          · rw [if_pos hlt]
            have hrhs : bestFitSpec sz (b :: bs) off acc =
                bestFitSpec sz bs (off + b.size) acc := by
              simp only [bestFitSpec]
              rw [if_neg (by omega : ¬ (b.alloc = false ∧ sz ≤ b.size))]
            rw [hrhs]
            exact ih (off + b.size) b.alloc fuel bf bsz acc hrest hsum' hfuel' hacc
          · rw [if_neg hlt]
            cases hba : b.alloc with
            | true =>
                rw [if_neg (by simp [hba, Bool.toNat])]
                have hrhs : bestFitSpec sz (b :: bs) off acc =
                    bestFitSpec sz bs (off + b.size) acc := by
                  simp only [bestFitSpec]
                  rw [if_neg (by simp [hba])]
                rw [hrhs]
                exact ih (off + b.size) b.alloc fuel bf bsz acc hrest hsum' hfuel' hacc
            | false =>
                rw [if_pos (by simp [hba, Bool.toNat])]
                have hfit : b.alloc = false ∧ sz ≤ b.size := ⟨hba, by omega⟩
                by_cases heq : b.size = sz
                · rw [if_pos heq]
                  have hrhs : bestFitSpec sz (b :: bs) off acc = some (off, sz) := by
                    rcases hacc with ⟨rfl, -, -⟩ | ⟨o, s, rfl, -, -, hslt⟩
                    · show bestFitSpec sz bs (off + b.size)
                        (if b.alloc = false ∧ sz ≤ b.size then some (off, b.size)
                         else none) = some (off, sz)
                      rw [if_pos hfit, heq]
                      exact bestFitSpec_exact bs _ _
                    · show bestFitSpec sz bs (off + b.size)
                        (if b.alloc = false ∧ sz ≤ b.size then
                          (if b.size < s then some (off, b.size) else some (o, s))
                         else some (o, s)) = some (off, sz)
                      rw [if_pos hfit, if_pos (by omega : b.size < s), heq]
                      exact bestFitSpec_exact bs _ _
                  rw [hrhs]
                  simp
                · rw [if_neg heq]
                  rcases hacc with ⟨rfl, rfl, rfl⟩ | ⟨o, s, rfl, rfl, hbsz, hslt⟩
                  · rw [if_pos (by omega : sz ≤ b.size ∧ b.size < 2147483647)]
                    have hrhs : bestFitSpec sz (b :: bs) off none =
                        bestFitSpec sz bs (off + b.size) (some (off, b.size)) := by
                      show bestFitSpec sz bs (off + b.size)
                        (if b.alloc = false ∧ sz ≤ b.size then some (off, b.size)
                         else none) = _
                      rw [if_pos hfit]
                    rw [hrhs]
                    exact ih (off + b.size) b.alloc fuel (some off) b.size
                      (some (off, b.size)) hrest hsum' hfuel'
                      (Or.inr ⟨off, b.size, rfl, rfl, rfl, by omega⟩)
                  · subst hbsz
                    by_cases hba2 : b.size < bsz
                    · rw [if_pos (by omega : sz ≤ b.size ∧ b.size < bsz)]
                      have hrhs : bestFitSpec sz (b :: bs) off (some (o, bsz)) =
                          bestFitSpec sz bs (off + b.size) (some (off, b.size)) := by
                        show bestFitSpec sz bs (off + b.size)
                          (if b.alloc = false ∧ sz ≤ b.size then
                            (if b.size < bsz then some (off, b.size) else some (o, bsz))
                           else some (o, bsz)) = _
                        rw [if_pos hfit, if_pos hba2]
                      rw [hrhs]
                      exact ih (off + b.size) b.alloc fuel (some off) b.size
                        (some (off, b.size)) hrest hsum' hfuel'
                        (Or.inr ⟨off, b.size, rfl, rfl, rfl, by omega⟩)
                    · rw [if_neg (by omega : ¬ (sz ≤ b.size ∧ b.size < bsz))]
                      have hrhs : bestFitSpec sz (b :: bs) off (some (o, bsz)) =
                          bestFitSpec sz bs (off + b.size) (some (o, bsz)) := by
                        show bestFitSpec sz bs (off + b.size)
                          (if b.alloc = false ∧ sz ≤ b.size then
                            (if b.size < bsz then some (off, b.size) else some (o, bsz))
                           else some (o, bsz)) = _
                        rw [if_pos hfit, if_neg hba2]
                      rw [hrhs]
                      exact ih (off + b.size) b.alloc fuel (some o) bsz (some (o, bsz))
                        hrest hsum' hfuel'
                        (Or.inr ⟨o, bsz, rfl, rfl, rfl, by omega⟩)

/-! ## Characterizing `alloc` -/

theorem reqSize_mod8 {n : Int} (hn : 1 ≤ n) : reqSize n % 8 = 0 := by
  have h5 : 5 ≤ (n + 4).toNat := by omega
  simp only [reqSize]
  split <;> omega

theorem reqSize_ge8 {n : Int} (hn : 1 ≤ n) : 8 ≤ reqSize n := by
  have h5 : 5 ≤ (n + 4).toNat := by omega
  simp only [reqSize]
  split <;> omega

theorem wfB_iff {h : Heap} {bl : List Blk} :
    wfB h bl = true ↔
      reprSeg h.mem bl 4 true = true ∧ sumSz bl = h.allocSize ∧
      rd h.mem (4 + h.allocSize) = 1 ∧ 4 + h.allocSize < 2147483647 := by
  simp [wfB, Bool.and_eq_true, decide_eq_true_eq, and_assoc]

theorem invB_iff {h : Heap} {bl : List Blk} :
    invB h bl = true ↔ wfB h bl = true ∧ noAdjB bl = true := by
  simp [invB, Bool.and_eq_true]

theorem sumSz_ge_len {m : Mem} {bl : List Blk} {off : Nat} {p : Bool}
    (h : reprSeg m bl off p = true) : 8 * bl.length ≤ sumSz bl := by
  induction bl generalizing off p with
  | nil => simp [sumSz]
  | cons b bs ih =>
      rw [reprSeg_cons] at h
      obtain ⟨h8, hpos, -, -, hrest⟩ := h
      have := ih hrest
      have hs : sumSz (b :: bs) = b.size + sumSz bs := rfl
      simp only [List.length_cons]
      omega

/-- Reduce the search-loop call of `alloc` on a well-formed heap to the
spec's policy. -/
theorem alloc_scan_eq {h : Heap} {bl : List Blk} (hwf : wfB h bl = true) (sz : Nat) :
    scan h.mem (4 + h.allocSize) sz (h.allocSize / 8 + 1) 4 none 2147483647 =
      (match bestFitSpec sz bl 4 none with
       | none => ScanRes.done none
       | some os => if os.2 = sz then ScanRes.found os.1
                    else ScanRes.done (some os.1)) := by
  rw [wfB_iff] at hwf
  obtain ⟨hrep, hsum, hsent, hmax⟩ := hwf
  have hlen := sumSz_ge_len hrep
  exact scan_correct hmax bl 4 true _ none 2147483647 none hrep (by omega)
    (by omega) (Or.inl ⟨rfl, rfl, rfl⟩)

/-- `noAdjB` as a chain condition, for list surgery. -/
theorem noAdjB_iff_chain {l : List Blk} :
    noAdjB l = true ↔ List.Chain' (fun a b => a.alloc = true ∨ b.alloc = true) l := by
  induction l with
  | nil => simp [noAdjB]
  | cons a l ih =>
      cases l with
      | nil => simp [noAdjB]
      | cons b l' =>
          rw [List.chain'_cons]
          simp only [noAdjB, Bool.and_eq_true, Bool.or_eq_true] at *
          tauto

theorem outP_concat (l : List Blk) (a : Blk) (p : Bool) :
    outP (l ++ [a]) p = a.alloc := by
  rw [outP_append]
  rfl

/-- In a heap with no adjacent free blocks, the block before a free block
is allocated (or the free block is first, where the convention is 1). -/
theorem outP_of_noAdj {l1 l2 : List Blk} {b : Blk} (h : noAdjB (l1 ++ b :: l2) = true)
    (hb : b.alloc = false) : outP l1 true = true := by
  rcases List.eq_nil_or_concat l1 with rfl | ⟨l1', a, rfl⟩
  · rfl
  · rw [List.concat_eq_append] at h ⊢
    rw [outP_concat]
    rw [noAdjB_iff_chain] at h
    have := (List.chain'_append.mp h).2.2
    have ha := this a (by rw [List.getLast?_concat]; rfl) b rfl
    rcases ha with ha | ha
    · exact ha
    · rw [hb] at ha; cases ha

/-- Unpack a well-formed heap at a block decomposition. -/
theorem wf_decomp {h : Heap} {bl l1 l2 : List Blk} {b : Blk}
    (hwf : wfB h bl = true) (hdec : bl = l1 ++ b :: l2) :
    reprSeg h.mem l1 4 true = true ∧
    b.size % 8 = 0 ∧ 0 < b.size ∧
    rd h.mem (4 + sumSz l1) = b.size + 2 * (outP l1 true).toNat + b.alloc.toNat ∧
    (b.alloc = false → rd h.mem (4 + sumSz l1 + b.size - 4) = b.size) ∧
    reprSeg h.mem l2 (4 + sumSz l1 + b.size) b.alloc = true ∧
    sumSz l1 % 8 = 0 ∧ sumSz l2 % 8 = 0 ∧
    4 + sumSz l1 + b.size + sumSz l2 = 4 + h.allocSize ∧
    rd h.mem (4 + h.allocSize) = 1 ∧ 4 + h.allocSize < 2147483647 := by
  rw [wfB_iff] at hwf
  obtain ⟨hrep, hsum, hsent, hmax⟩ := hwf
  rw [hdec] at hrep hsum
  rw [reprSeg_append, Bool.and_eq_true] at hrep
  obtain ⟨hrep1, hrep2⟩ := hrep
  rw [reprSeg_cons] at hrep2
  obtain ⟨h8, hpos, hhdr, hftr, hrest⟩ := hrep2
  have hm1 := reprSeg_sumSz_mod8 hrep1
  have hm2 := reprSeg_sumSz_mod8 hrest
  rw [sumSz_append] at hsum
  have hs : sumSz (b :: l2) = b.size + sumSz l2 := rfl
  exact ⟨hrep1, h8, hpos, hhdr, hftr, hrest, hm1, hm2, by omega, hsent, hmax⟩

/-- The result value of `alloc` on a well-formed heap is the payload of the
block chosen by the spec's best-fit policy (`none` when no free block
fits). -/
theorem alloc_result {h : Heap} {bl : List Blk} {n : Int} (hwf : wfB h bl = true)
    (hn : 1 ≤ n) :
    (alloc h n).1 = (bestFitSpec (reqSize n) bl 4 none).map (fun os => os.1 + 4) := by
  simp only [alloc]
  rw [if_neg (by omega : ¬ n < 1)]
  rw [alloc_scan_eq hwf (reqSize n)]
  cases hbf : bestFitSpec (reqSize n) bl 4 none with
  | none => rfl
  | some os =>
      obtain ⟨o, s⟩ := os
      dsimp only
      by_cases heq : s = reqSize n
      · rw [if_pos heq]; rfl
      · rw [if_neg heq]; rfl

/-! ## Reduction of `alloc` to its branches -/

theorem alloc_none {h : Heap} {bl : List Blk} {n : Int} (hwf : wfB h bl = true)
    (hn : 1 ≤ n) (hfit : bestFitSpec (reqSize n) bl 4 none = none) :
    alloc h n = (none, h) := by
  simp only [alloc]
  rw [if_neg (by omega : ¬ n < 1), alloc_scan_eq hwf (reqSize n), hfit]

theorem alloc_lt_one {h : Heap} {n : Int} (hn : n < 1) : alloc h n = (none, h) := by
  simp only [alloc]
  rw [if_pos hn]

theorem alloc_eq_found {h : Heap} {bl : List Blk} {n : Int} {o : Nat}
    (hwf : wfB h bl = true) (hn : 1 ≤ n)
    (hfit : bestFitSpec (reqSize n) bl 4 none = some (o, reqSize n)) :
    alloc h n = (some (o + 4),
      ⟨alloc_exact_branch h.mem (4 + h.allocSize) o, h.allocSize⟩) := by
  simp only [alloc]
  rw [if_neg (by omega : ¬ n < 1), alloc_scan_eq hwf (reqSize n), hfit]
  dsimp only
  rw [if_pos rfl]

theorem alloc_eq_split {h : Heap} {bl : List Blk} {n : Int} {o s : Nat}
    (hwf : wfB h bl = true) (hn : 1 ≤ n)
    (hfit : bestFitSpec (reqSize n) bl 4 none = some (o, s)) (hne : s ≠ reqSize n) :
    alloc h n = (some (o + 4),
      ⟨alloc_split_branch h.mem (reqSize n) o, h.allocSize⟩) := by
  simp only [alloc]
  rw [if_neg (by omega : ¬ n < 1), alloc_scan_eq hwf (reqSize n), hfit]
  dsimp only
  rw [if_neg hne]

/-! ## Frame helpers -/

/-- A segment is unaffected by writes at or beyond its end. -/
theorem reprSeg_frame_above {m m' : Mem} {bl : List Blk} {off : Nat} {p : Bool} {hi : Nat}
    (h : reprSeg m bl off p = true) (hhi : off + sumSz bl ≤ hi)
    (hag : ∀ a, a + 4 ≤ hi → rd m' a = rd m a) : reprSeg m' bl off p = true :=
  reprSeg_frame h (fun a ha => hag a (by have := (fp_bounds h a ha).2.1; omega))

/-- A segment is unaffected by writes strictly below its start. -/
theorem reprSeg_frame_below {m m' : Mem} {bl : List Blk} {off : Nat} {p : Bool} {lo : Nat}
    (h : reprSeg m bl off p = true) (hlo : lo ≤ off)
    (hag : ∀ a, lo ≤ a → rd m' a = rd m a) : reprSeg m' bl off p = true :=
  reprSeg_frame h (fun a ha => hag a (le_trans hlo (fp_bounds h a ha).1))

/-! ## No-adjacent-free surgery -/

/-- Replacing a block by an allocated one preserves the invariant. -/
theorem noAdjB_mid {l1 l2 : List Blk} {b b' : Blk} (h : noAdjB (l1 ++ b :: l2) = true)
    (hb : b'.alloc = true) : noAdjB (l1 ++ b' :: l2) = true := by
  rw [noAdjB_iff_chain] at h ⊢
  rw [List.chain'_append] at h ⊢
  obtain ⟨h1, h2, h3⟩ := h
  refine ⟨h1, ?_, ?_⟩
  · rw [List.chain'_cons'] at h2 ⊢
    exact ⟨fun y _ => Or.inl hb, h2.2⟩
  · intro x hx y hy
    have : y = b' := by
      simp only [List.head?_cons, Option.mem_def, Option.some.injEq] at hy
      exact hy.symm
    rw [this]
    exact Or.inr hb

/-- Splitting a free block into an allocated low part and a free high part
preserves the invariant. -/
theorem noAdjB_split {l1 l2 : List Blk} {b b1 b2 : Blk} (h : noAdjB (l1 ++ b :: l2) = true)
    (hb : b.alloc = false) (h1 : b1.alloc = true) :
    noAdjB (l1 ++ b1 :: b2 :: l2) = true := by
  rw [noAdjB_iff_chain] at h ⊢
  rw [List.chain'_append] at h ⊢
  obtain ⟨hc1, hc2, hc3⟩ := h
  rw [List.chain'_cons'] at hc2
  refine ⟨hc1, ?_, ?_⟩
  · rw [List.chain'_cons]
    refine ⟨Or.inl h1, ?_⟩
    rw [List.chain'_cons']
    refine ⟨?_, hc2.2⟩
    intro y hy
    rcases hc2.1 y hy with hyl | hyr
    · rw [hb] at hyl; cases hyl
    · exact Or.inr hyr
  · intro x hx y hy
    have : y = b1 := by
      simp only [List.head?_cons, Option.mem_def, Option.some.injEq] at hy
      exact hy.symm
    rw [this]
    exact Or.inr h1

/-! ## The exact-match branch preserves well-formedness -/

theorem exact_branch_wf {m : Mem} {l1 l2 : List Blk} {b : Blk} {A : Nat}
    (hrep1 : reprSeg m l1 4 true = true)
    (h8 : b.size % 8 = 0) (hpos : 0 < b.size)
    (hhdr : rd m (4 + sumSz l1) = b.size + 2 * (outP l1 true).toNat + Bool.toNat false)
    (hrest : reprSeg m l2 (4 + sumSz l1 + b.size) false = true)
    (hm1 : sumSz l1 % 8 = 0)
    (hsum : 4 + sumSz l1 + b.size + sumSz l2 = 4 + A)
    (hsent : rd m (4 + A) = 1) (hmax : 4 + A < 2147483647) :
    wfB ⟨alloc_exact_branch m (4 + A) (4 + sumSz l1), A⟩ (l1 ++ ⟨b.size, true⟩ :: l2) = true := by
  have hm2 := reprSeg_sumSz_mod8 hrest
  have hA8 : A % 8 = 0 := by omega
  have hsb : sizeBits (rd m (4 + sumSz l1)) = b.size := by
    rw [hhdr]
    exact sizeBits_hdr (by omega) _ false
  have hw1hdr : rd (wr m (4 + sumSz l1) (rd m (4 + sumSz l1) + 1)) (4 + sumSz l1)
      = b.size + 2 * (outP l1 true).toNat + 1 := by
    rw [rd_wr_self, hhdr]
    simp [Bool.toNat]
  simp only [alloc_exact_branch, hsb]
  cases l2 with
  | nil =>
      have hz : sumSz ([] : List Blk) = 0 := rfl
      rw [if_neg (by omega : ¬ (4 + sumSz l1 + b.size < 4 + A ∧
        rd (wr m (4 + sumSz l1) (rd m (4 + sumSz l1) + 1)) (4 + sumSz l1 + b.size) &&& 2 = 0))]
      rw [wfB_iff]
      dsimp only
      refine ⟨?_, ?_, ?_, hmax⟩
      · rw [reprSeg_append, Bool.and_eq_true]
        constructor
        · exact reprSeg_frame_above hrep1 (le_refl _)
            (fun a ha => rd_wr_ne m (4 + sumSz l1) a (by omega))
        · rw [reprSeg_cons]
          refine ⟨h8, hpos, ?_, ?_, ?_⟩
          · rw [hw1hdr]
            simp
          · intro hf
            simp at hf
          · rfl
      · rw [sumSz_append]
        have : sumSz [(⟨b.size, true⟩ : Blk)] = b.size + 0 := rfl
        omega
      · rw [rd_wr_ne m (4 + sumSz l1) (4 + A) (by omega)]
        exact hsent
  | cons c l2' =>
      rw [reprSeg_cons] at hrest
      obtain ⟨hc8, hcpos, hchdr, hcftr, hcrest⟩ := hrest
      have hm2' := reprSeg_sumSz_mod8 hcrest
      have hsz' : sumSz (c :: l2') = c.size + sumSz l2' := rfl
      have hne1 : (4 + sumSz l1 + b.size) / 4 ≠ (4 + sumSz l1) / 4 := by omega
      have hw1next : rd (wr m (4 + sumSz l1) (rd m (4 + sumSz l1) + 1)) (4 + sumSz l1 + b.size)
          = c.size + 2 * Bool.toNat false + c.alloc.toNat := by
        rw [rd_wr_ne m (4 + sumSz l1) (4 + sumSz l1 + b.size) hne1]
        exact hchdr
      rw [if_pos ⟨by omega, by rw [hw1next]; exact and_two_val (by omega) false c.alloc⟩]
      rw [wfB_iff]
      dsimp only
      refine ⟨?_, ?_, ?_, hmax⟩
      · rw [reprSeg_append, Bool.and_eq_true]
        constructor
        · refine reprSeg_frame_above hrep1 (le_refl _) (fun a ha => ?_)
          rw [rd_wr_ne _ (4 + sumSz l1 + b.size) a (by omega),
            rd_wr_ne m (4 + sumSz l1) a (by omega)]
        · rw [reprSeg_cons]
          refine ⟨h8, hpos, ?_, ?_, ?_⟩
          · rw [rd_wr_ne _ (4 + sumSz l1 + b.size) (4 + sumSz l1) (Ne.symm hne1), hw1hdr]
            simp
          · intro hf
            simp at hf
          · rw [reprSeg_cons]
            dsimp only
            refine ⟨hc8, hcpos, ?_, ?_, ?_⟩
            · rw [rd_wr_self, hw1next]
              simp only [Bool.toNat_true, Bool.toNat_false]
              omega
            · intro hcf
              rw [rd_wr_ne _ (4 + sumSz l1 + b.size) (4 + sumSz l1 + b.size + c.size - 4)
                  (by omega),
                rd_wr_ne m (4 + sumSz l1) (4 + sumSz l1 + b.size + c.size - 4) (by omega)]
              exact hcftr hcf
            · refine reprSeg_frame_below hcrest (le_refl _) (fun a ha => ?_)
              rw [rd_wr_ne _ (4 + sumSz l1 + b.size) a (by omega),
                rd_wr_ne m (4 + sumSz l1) a (by omega)]
      · rw [sumSz_append]
        have : sumSz ((⟨b.size, true⟩ : Blk) :: c :: l2') = b.size + (c.size + sumSz l2') := rfl
        omega
      · rw [rd_wr_ne _ (4 + sumSz l1 + b.size) (4 + A) (by omega),
          rd_wr_ne m (4 + sumSz l1) (4 + A) (by omega)]
        exact hsent

/-! ## The split branch preserves well-formedness -/

theorem split_branch_wf {m : Mem} {l1 l2 : List Blk} {b : Blk} {A sz : Nat}
    (hrep1 : reprSeg m l1 4 true = true)
    (h8 : b.size % 8 = 0) (hpos : 0 < b.size)
    (hout : outP l1 true = true)
    (hhdr : rd m (4 + sumSz l1) = b.size + 2 * (outP l1 true).toNat + Bool.toNat false)
    (hrest : reprSeg m l2 (4 + sumSz l1 + b.size) false = true)
    (hm1 : sumSz l1 % 8 = 0)
    (hsum : 4 + sumSz l1 + b.size + sumSz l2 = 4 + A)
    (hsent : rd m (4 + A) = 1) (hmax : 4 + A < 2147483647)
    (hsz8 : sz % 8 = 0) (hsz1 : 8 ≤ sz) (hlt : sz < b.size) :
    wfB ⟨alloc_split_branch m sz (4 + sumSz l1), A⟩
      (l1 ++ ⟨sz, true⟩ :: ⟨b.size - sz, false⟩ :: l2) = true := by
  have hm2 := reprSeg_sumSz_mod8 hrest
  have hA8 : A % 8 = 0 := by omega
  have hrem8 : (b.size - sz) % 8 = 0 := by omega
  have hrem1 : 8 ≤ b.size - sz := by omega
  have hsb : sizeBits (rd m (4 + sumSz l1)) = b.size := by
    rw [hhdr]
    exact sizeBits_hdr (by omega) _ false
  have hand2 : (rd m (4 + sumSz l1)) &&& 2 = 2 := by
    rw [hhdr, and_two_val (by omega)]
    rw [hout]
    rfl
  simp only [alloc_split_branch, hsb, hand2]
  -- after the first two writes, the low header is still in place
  have hv1 : rd (wr (wr m (4 + sumSz l1) (sz + 2 + 1))
      (4 + sumSz l1 + sz + (b.size - sz) - 4) (b.size - sz)) (4 + sumSz l1)
      = sz + 2 + 1 := by
    rw [rd_wr_ne _ (4 + sumSz l1 + sz + (b.size - sz) - 4) (4 + sumSz l1) (by omega),
      rd_wr_self]
  rw [hv1]
  have hand2' : (sz + 2 + 1) &&& 2 = 2 := by
    have := and_two_val (s := sz) (by omega) true true
    simp only [Bool.toNat_true] at this
    calc (sz + 2 + 1) &&& 2 = (sz + 2 * 1 + 1) &&& 2 := by ring_nf
    _ = 2 * 1 := this
    _ = 2 := by norm_num
  rw [hand2', lor_two_eq (by omega)]
  rw [wfB_iff]
  dsimp only
  refine ⟨?_, ?_, ?_, hmax⟩
  · rw [reprSeg_append, Bool.and_eq_true]
    constructor
    · refine reprSeg_frame_above hrep1 (le_refl _) (fun a ha => ?_)
      rw [rd_wr_ne _ (4 + sumSz l1 + sz) a (by omega),
        rd_wr_ne _ (4 + sumSz l1 + sz + (b.size - sz) - 4) a (by omega),
        rd_wr_ne m (4 + sumSz l1) a (by omega)]
    · rw [reprSeg_cons]
      refine ⟨hsz8, show 0 < sz by omega, ?_, ?_, ?_⟩
      · rw [rd_wr_ne _ (4 + sumSz l1 + sz) (4 + sumSz l1) (by omega), hv1, hout]
        simp
      · intro hf
        simp at hf
      · rw [reprSeg_cons]
        dsimp only
        refine ⟨hrem8, show 0 < b.size - sz by omega, ?_, ?_, ?_⟩
        · rw [rd_wr_self]
          simp
        · intro hf
          rw [rd_wr_ne _ (4 + sumSz l1 + sz) (4 + sumSz l1 + sz + (b.size - sz) - 4)
              (by omega), rd_wr_self]
        · have hrest' : reprSeg m l2 (4 + sumSz l1 + sz + (b.size - sz)) false = true := by
            have he : 4 + sumSz l1 + sz + (b.size - sz) = 4 + sumSz l1 + b.size := by omega
            rw [he]
            exact hrest
          refine reprSeg_frame_below hrest' (le_refl _) (fun a ha => ?_)
          rw [rd_wr_ne _ (4 + sumSz l1 + sz) a (by omega),
            rd_wr_ne _ (4 + sumSz l1 + sz + (b.size - sz) - 4) a (by omega),
            rd_wr_ne m (4 + sumSz l1) a (by omega)]
  · rw [sumSz_append]
    have : sumSz ((⟨sz, true⟩ : Blk) :: ⟨b.size - sz, false⟩ :: l2)
        = sz + ((b.size - sz) + sumSz l2) := rfl
    omega
  · rw [rd_wr_ne _ (4 + sumSz l1 + sz) (4 + A) (by omega),
      rd_wr_ne _ (4 + sumSz l1 + sz + (b.size - sz) - 4) (4 + A) (by omega),
      rd_wr_ne m (4 + sumSz l1) (4 + A) (by omega)]
    exact hsent

/-! ## The forward-coalescing phase of `free_block` -/

/-- Specification of the forward-coalescing `if` of `free_core`, acting on
the memory in which the released block's a-bit is already cleared (`rd m o
= bsz + 2 * t`). -/
theorem free_fwd_spec {m : Mem} {l2 : List Blk} {o bsz A t : Nat}
    (hrest : reprSeg m l2 (o + bsz) true = true)
    (h8 : bsz % 8 = 0) (hpos : 0 < bsz) (ht : t ≤ 1)
    (hm1o : rd m o = bsz + 2 * t)
    (hsum : o + bsz + sumSz l2 = 4 + A)
    (hsent : rd m (4 + A) = 1) :
    ∃ m2 s1,
      (if (rd m (o + bsz)) &&& 1 = 0 then
        (wr m o ((bsz + sizeBits (rd m (o + bsz))) ||| ((rd m o) &&& 2)),
          bsz + sizeBits (rd m (o + bsz)))
       else (m, bsz)) = (m2, s1) ∧
      s1 = fwdSz ⟨bsz, true⟩ l2 ∧
      s1 % 8 = 0 ∧ bsz ≤ s1 ∧
      o + s1 + sumSz (fwdTail l2) = 4 + A ∧
      rd m2 o = s1 + 2 * t ∧
      (∀ a, a / 4 ≠ o / 4 → rd m2 a = rd m a) ∧
      ((fwdTail l2 = [] ∧ o + s1 = 4 + A) ∨
        (∃ d tl pd, fwdTail l2 = d :: tl ∧ d.size % 8 = 0 ∧ 0 < d.size ∧
          rd m2 (o + s1) = d.size + 2 * Bool.toNat pd + d.alloc.toNat ∧
          (d.alloc = false → rd m2 (o + s1 + d.size - 4) = d.size) ∧
          reprSeg m2 tl (o + s1 + d.size) d.alloc = true)) := by
  cases l2 with
  | nil =>
      have hz : sumSz ([] : List Blk) = 0 := rfl
      have hnx : o + bsz = 4 + A := by omega
      have hcond : ¬ ((rd m (o + bsz)) &&& 1 = 0) := by
        rw [hnx, hsent]
        decide
      rw [if_neg hcond]
      refine ⟨m, bsz, rfl, by simp [fwdSz], h8, le_refl _, ?_, hm1o,
        fun a ha => rfl, Or.inl ⟨rfl, by omega⟩⟩
      have hzt : sumSz (fwdTail ([] : List Blk)) = 0 := rfl
      omega
  | cons c cs =>
      rw [reprSeg_cons] at hrest
      obtain ⟨hc8, hcpos, hchdr, hcftr, hcrest⟩ := hrest
      have hsz' : sumSz (c :: cs) = c.size + sumSz cs := rfl
      cases hca : c.alloc with
      | true =>
          have hcond : ¬ ((rd m (o + bsz)) &&& 1 = 0) := by
            rw [and_one, hchdr, hca]
            simp only [Bool.toNat_true]
            omega
          rw [if_neg hcond]
          have hft : fwdTail (c :: cs) = c :: cs := by simp [fwdTail, hca]
          refine ⟨m, bsz, rfl, by simp [fwdSz, hca], h8, le_refl _, ?_,
            hm1o, fun a ha => rfl, Or.inr ⟨c, cs, true, hft, hc8, hcpos, ?_, ?_, ?_⟩⟩
          · rw [hft]
            omega
          · rw [hchdr, hca]
          · intro hcf
            rw [hca] at hcf
            cases hcf
          · exact hcrest
      | false =>
          have hcond : (rd m (o + bsz)) &&& 1 = 0 := by
            rw [and_one, hchdr, hca]
            simp only [Bool.toNat_false]
            omega
          rw [if_pos hcond]
          have hsbc : sizeBits (rd m (o + bsz)) = c.size := by
            rw [sizeBits_eq, hchdr, hca]
            simp only [Bool.toNat_false, Bool.toNat_true]
            omega
          have hand2 : (rd m o) &&& 2 = 2 * t := by
            rw [and_two_eq, hm1o]
            omega
          have hlor : (bsz + c.size) ||| (2 * t) = bsz + c.size + 2 * t := by
            rcases Nat.le_one_iff_eq_zero_or_eq_one.mp ht with rfl | rfl
            · simp
            · have := lor_two_eq (x := bsz + c.size) (by omega)
              simpa using this
          have hft : fwdTail (c :: cs) = cs := by simp [fwdTail, hca]
          refine ⟨_, bsz + c.size, by rw [hsbc, hand2, hlor], by simp [fwdSz, hca],
            by omega, by omega, ?_, by rw [rd_wr_self], fun a ha => rd_wr_ne m o a ha, ?_⟩
          · rw [hft]
            omega
          · cases cs with
            | nil =>
                refine Or.inl ⟨by rw [hft], ?_⟩
                have hzt : sumSz ([] : List Blk) = 0 := rfl
                omega
            | cons d tl =>
                simp only [hca] at hcrest
                rw [reprSeg_cons] at hcrest
                obtain ⟨hd8, hdpos, hdhdr, hdftr, hdrest⟩ := hcrest
                have hsz'' : sumSz (d :: tl) = d.size + sumSz tl := rfl
                refine Or.inr ⟨d, tl, false, by rw [hft], hd8, hdpos, ?_, ?_, ?_⟩
                · have he : o + (bsz + c.size) = o + bsz + c.size := by omega
                  rw [he, rd_wr_ne m o (o + bsz + c.size) (by omega)]
                  exact hdhdr
                · intro hdf
                  have he : o + (bsz + c.size) + d.size - 4 = o + bsz + c.size + d.size - 4 := by
                    omega
                  rw [he, rd_wr_ne m o (o + bsz + c.size + d.size - 4) (by omega)]
                  exact hdftr hdf
                · have he : o + (bsz + c.size) + d.size = o + bsz + c.size + d.size := by
                    omega
                  rw [he]
                  refine reprSeg_frame_below hdrest (le_refl _) (fun a ha => ?_)
                  exact rd_wr_ne m o a (by omega)

/-- Specification of `free_core` on a well-formed heap, releasing the
allocated block `b` that sits between `l1` and `l2`.  The result is the
merged free block (after forward and backward coalescing) with its header
written; the successor's p-bit and the footer are handled afterwards by
`free_block`. -/
theorem free_core_spec {m : Mem} {l1 l2 : List Blk} {b : Blk} {A : Nat}
    (hrep1 : reprSeg m l1 4 true = true)
    (h8 : b.size % 8 = 0) (hpos : 0 < b.size)
    (hhdr : rd m (4 + sumSz l1) = b.size + 2 * (outP l1 true).toNat + Bool.toNat true)
    (hrest : reprSeg m l2 (4 + sumSz l1 + b.size) true = true)
    (hm1 : sumSz l1 % 8 = 0)
    (hsum : 4 + sumSz l1 + b.size + sumSz l2 = 4 + A)
    (hsent : rd m (4 + A) = 1) :
    ∃ pre s1 m3,
      free_core m (4 + sumSz l1) = (m3, 4 + sumSz pre, s1) ∧
      freeAbs l1 b l2 = pre ++ ⟨s1, false⟩ :: fwdTail l2 ∧
      s1 % 8 = 0 ∧ 0 < s1 ∧ sumSz pre % 8 = 0 ∧
      4 + sumSz pre + s1 + sumSz (fwdTail l2) = 4 + A ∧
      reprSeg m3 pre 4 true = true ∧
      rd m3 (4 + sumSz pre) = s1 + 2 * (outP pre true).toNat + Bool.toNat false ∧
      ((fwdTail l2 = [] ∧ 4 + sumSz pre + s1 = 4 + A) ∨
        (∃ d tl pd, fwdTail l2 = d :: tl ∧ d.size % 8 = 0 ∧ 0 < d.size ∧
          rd m3 (4 + sumSz pre + s1) = d.size + 2 * Bool.toNat pd + d.alloc.toNat ∧
          (d.alloc = false → rd m3 (4 + sumSz pre + s1 + d.size - 4) = d.size) ∧
          reprSeg m3 tl (4 + sumSz pre + s1 + d.size) d.alloc = true)) ∧
      rd m3 (4 + A) = 1 := by
  have hm2' := reprSeg_sumSz_mod8 hrest
  have hA8 : A % 8 = 0 := by omega
  have htle := Bool.toNat_le (outP l1 true)
  simp only [free_core]
  set m1 : Mem := wr m (4 + sumSz l1) (andNot1 (rd m (4 + sumSz l1))) with hm1def
  have hcl : andNot1 (rd m (4 + sumSz l1)) = b.size + 2 * (outP l1 true).toNat := by
    rw [andNot1_eq, hhdr]
    simp only [Bool.toNat_true]
    omega
  have hm1o : rd m1 (4 + sumSz l1) = b.size + 2 * (outP l1 true).toNat := by
    rw [hm1def, rd_wr_self, hcl]
  have hm1frame : ∀ a, a / 4 ≠ (4 + sumSz l1) / 4 → rd m1 a = rd m a := by
    intro a ha
    rw [hm1def]
    exact rd_wr_ne m (4 + sumSz l1) a ha
  have hsb1 : sizeBits (rd m1 (4 + sumSz l1)) = b.size := by
    rw [hm1o, sizeBits_eq]
    omega
  rw [hsb1]
  have hrest1 : reprSeg m1 l2 (4 + sumSz l1 + b.size) true = true :=
    reprSeg_frame_below hrest (le_refl _) (fun a ha => hm1frame a (by omega))
  have hsent1 : rd m1 (4 + A) = 1 := by
    rw [hm1frame (4 + A) (by omega)]
    exact hsent
  obtain ⟨m2, s1, hfm, hs1f, hs18, hbls1, hsumf, hm2o, hframe2, htail⟩ :=
    free_fwd_spec hrest1 h8 hpos htle hm1o hsum hsent1
  rw [hfm]
  dsimp only
  have hs1f' : s1 = fwdSz b l2 := by rw [hs1f]; rfl
  have hand2 : (rd m2 (4 + sumSz l1)) &&& 2 = 2 * (outP l1 true).toNat := by
    rw [and_two_eq, hm2o]
    omega
  have hm2frame : ∀ a, a / 4 ≠ (4 + sumSz l1) / 4 → rd m2 a = rd m a := by
    intro a ha
    rw [hframe2 a ha]
    exact hm1frame a ha
  have hsent2 : rd m2 (4 + A) = 1 := by
    rw [hframe2 (4 + A) (by omega)]
    exact hsent1
  rcases List.eq_nil_or_concat l1 with rfl | ⟨l1', a, rfl⟩
  · -- the released block is first: its p-bit is the init convention 1
    have ht1 : (outP ([] : List Blk) true).toNat = 1 := rfl
    rw [if_neg (by rw [hand2, ht1]; omega)]
    refine ⟨[], s1, m2, rfl, ?_, hs18, by omega, rfl, ?_, rfl, ?_, htail, hsent2⟩
    · show (⟨fwdSz b l2, false⟩ : Blk) :: fwdTail l2 = [] ++ ⟨s1, false⟩ :: fwdTail l2
      rw [← hs1f']
      rfl
    · exact hsumf
    · rw [hm2o, ht1]
      simp
  · simp only [List.concat_eq_append] at *
    rw [sumSz_append] at hand2 hm2o hm2frame hsumf hm1 hsum htail ⊢
    have hsza : sumSz [a] = a.size := by simp [sumSz]
    rw [hsza] at hand2 hm2o hm2frame hsumf hm1 hsum htail ⊢
    rw [reprSeg_append, Bool.and_eq_true] at hrep1
    obtain ⟨hrep1', hrepa⟩ := hrep1
    rw [reprSeg_cons] at hrepa
    obtain ⟨ha8, hapos, hahdr, haftr, -⟩ := hrepa
    have hm1'8 := reprSeg_sumSz_mod8 hrep1'
    have hout : outP (l1' ++ [a]) true = a.alloc := outP_concat l1' a true
    rw [hout] at hand2 hm2o
    cases haa : a.alloc with
    | true =>
        rw [haa] at hand2 hm2o
        rw [if_neg (by rw [hand2]; simp)]
        have hrepla : reprSeg m2 (l1' ++ [a]) 4 true = true := by
          have hr : reprSeg m (l1' ++ [a]) 4 true = true := by
            rw [reprSeg_append, Bool.and_eq_true]
            refine ⟨hrep1', ?_⟩
            rw [reprSeg_cons]
            exact ⟨ha8, hapos, hahdr, haftr, by rfl⟩
          have hhi : 4 + sumSz (l1' ++ [a]) ≤ 4 + (sumSz l1' + a.size) := by
            rw [sumSz_append, hsza]
          refine reprSeg_frame_above hr hhi (fun x hx => ?_)
          exact hm2frame x (by omega)
        refine ⟨l1' ++ [a], s1, m2, ?_, ?_, hs18, by omega, ?_, ?_, hrepla, ?_, ?_, hsent2⟩
        · rw [sumSz_append, hsza]
        · rw [freeAbs, List.getLast?_concat]
          simp only [haa, if_pos]
          rw [← hs1f']
        · rw [sumSz_append, hsza]
          omega
        · rw [sumSz_append, hsza]
          omega
        · rw [sumSz_append, hsza, hout, haa, hm2o]
          simp
        · rw [sumSz_append, hsza]
          exact htail
    | false =>
        rw [haa] at hand2 hm2o
        rw [haa] at hahdr
        rw [if_pos (by rw [hand2]; simp)]
        have hpf : rd m2 (4 + (sumSz l1' + a.size) - 4) = a.size := by
          rw [hm2frame _ (by omega)]
          have he : 4 + (sumSz l1' + a.size) - 4 = 4 + sumSz l1' + a.size - 4 := by omega
          rw [he]
          exact haftr haa
        rw [hpf]
        have hph : 4 + (sumSz l1' + a.size) - a.size = 4 + sumSz l1' := by omega
        rw [hph]
        have hprev : rd m2 (4 + sumSz l1') = a.size + 2 * (outP l1' true).toNat
            + Bool.toNat false := by
          rw [hm2frame _ (by omega)]
          have he : (4 : Nat) + sumSz l1' = 4 + sumSz l1' := rfl
          exact hahdr
        have hpa := Bool.toNat_le (outP l1' true)
        have hand2' : (rd m2 (4 + sumSz l1')) &&& 2 = 2 * (outP l1' true).toNat := by
          rw [and_two_eq, hprev]
          simp only [Bool.toNat_false]
          omega
        rw [hand2']
        have hlor : (s1 + a.size) ||| (2 * (outP l1' true).toNat)
            = s1 + a.size + 2 * (outP l1' true).toNat := by
          cases hpab : outP l1' true
          · simp
          · simp only [Bool.toNat_true, Nat.mul_one]
            exact lor_two_eq (by omega)
        rw [hlor]
        refine ⟨l1', s1 + a.size, _, rfl, ?_, by omega, by omega, hm1'8, by omega, ?_, ?_, ?_,
          ?_⟩
        · rw [freeAbs, List.getLast?_concat]
          simp only [haa, Bool.false_eq_true, if_false, List.dropLast_concat]
          have he : a.size + fwdSz b l2 = s1 + a.size := by omega
          rw [he]
        · refine reprSeg_frame_above hrep1' (le_refl _) (fun x hx => ?_)
          rw [rd_wr_ne _ (4 + sumSz l1') x (by omega)]
          exact hm2frame x (by omega)
        · rw [rd_wr_self]
          simp
        · rcases htail with ⟨hft, hoA⟩ | ⟨d, tl, pd, hft, hd8, hdpos, hdhdr2, hdftr2, hdrest2⟩
          · refine Or.inl ⟨hft, by omega⟩
          · refine Or.inr ⟨d, tl, pd, hft, hd8, hdpos, ?_, ?_, ?_⟩
            · have he : 4 + sumSz l1' + (s1 + a.size) = 4 + (sumSz l1' + a.size) + s1 := by
                omega
              rw [he, rd_wr_ne _ (4 + sumSz l1') _ (by omega)]
              exact hdhdr2
            · intro hdf
              have he : 4 + sumSz l1' + (s1 + a.size) + d.size - 4
                  = 4 + (sumSz l1' + a.size) + s1 + d.size - 4 := by omega
              rw [he, rd_wr_ne _ (4 + sumSz l1') _ (by omega)]
              exact hdftr2 hdf
            · have he : 4 + sumSz l1' + (s1 + a.size) + d.size
                  = 4 + (sumSz l1' + a.size) + s1 + d.size := by omega
              rw [he]
              refine reprSeg_frame_below hdrest2 (le_refl _) (fun x hx => ?_)
              rw [rd_wr_ne _ (4 + sumSz l1') x (by omega)]
        · rw [rd_wr_ne _ (4 + sumSz l1') (4 + A) (by omega)]
          exact hsent2

/-- Releasing a block and coalescing never creates adjacent free blocks. -/
theorem noAdjB_freeAbs {l1 l2 : List Blk} {b : Blk}
    (h : noAdjB (l1 ++ b :: l2) = true) :
    noAdjB (freeAbs l1 b l2) = true := by
  rw [noAdjB_iff_chain] at h
  rw [List.chain'_append] at h
  obtain ⟨hC1, hC2, hXB⟩ := h
  rw [List.chain'_cons'] at hC2
  obtain ⟨hBl2, hC2'⟩ := hC2
  have hT : ∀ s : Nat, List.Chain' (fun x y => x.alloc = true ∨ y.alloc = true)
      ((⟨s, false⟩ : Blk) :: fwdTail l2) := by
    intro s
    cases l2 with
    | nil => simp [fwdTail]
    | cons c cs =>
        cases hca : c.alloc with
        | true =>
            have hft : fwdTail (c :: cs) = c :: cs := by simp [fwdTail, hca]
            rw [hft, List.chain'_cons']
            refine ⟨?_, hC2'⟩
            intro y hy
            have : y = c := by
              simp only [List.head?_cons, Option.mem_def, Option.some.injEq] at hy
              exact hy.symm
            rw [this]
            exact Or.inr hca
        | false =>
            have hft : fwdTail (c :: cs) = cs := by simp [fwdTail, hca]
            rw [hft, List.chain'_cons']
            rw [List.chain'_cons'] at hC2'
            refine ⟨?_, hC2'.2⟩
            intro y hy
            rcases hC2'.1 y hy with hc | hy'
            · rw [hca] at hc; cases hc
            · exact Or.inr hy'
  rcases List.eq_nil_or_concat l1 with rfl | ⟨l1', a, rfl⟩
  · have hfa : freeAbs [] b l2 = (⟨fwdSz b l2, false⟩ : Blk) :: fwdTail l2 := rfl
    rw [hfa, noAdjB_iff_chain]
    exact hT _
  · rw [List.concat_eq_append] at hC1 hXB ⊢
    cases haa : a.alloc with
    | true =>
        have hfa : freeAbs (l1' ++ [a]) b l2
            = (l1' ++ [a]) ++ (⟨fwdSz b l2, false⟩ : Blk) :: fwdTail l2 := by
          rw [freeAbs, List.getLast?_concat]
          simp [haa]
        rw [hfa, noAdjB_iff_chain, List.chain'_append]
        refine ⟨hC1, hT _, ?_⟩
        intro x hx y hy
        have hxa : x = a := by
          rw [List.getLast?_concat] at hx
          simp only [Option.mem_def, Option.some.injEq] at hx
          exact hx.symm
        rw [hxa]
        exact Or.inl haa
    | false =>
        have hfa : freeAbs (l1' ++ [a]) b l2
            = l1' ++ (⟨a.size + fwdSz b l2, false⟩ : Blk) :: fwdTail l2 := by
          rw [freeAbs, List.getLast?_concat]
          simp [haa]
        rw [hfa, noAdjB_iff_chain, List.chain'_append]
        rw [List.chain'_append] at hC1
        refine ⟨hC1.1, hT _, ?_⟩
        intro x hx y hy
        have hra := hC1.2.2 x hx a (by rfl)
        rcases hra with hx' | ha'
        · exact Or.inl hx'
        · rw [haa] at ha'; cases ha'

/-- A successful, in-contract `free_block` call: releasing the allocated
block `b` between `l1` and `l2` returns 0, and the heap then represents
`freeAbs l1 b l2`, with the merged block's footer written at its last 4
bytes (always inside the arena). -/
theorem free_ok {h : Heap} {bl l1 l2 : List Blk} {b : Blk}
    (hwf : wfB h bl = true)
    (hdec : bl = l1 ++ b :: l2) (hb : b.alloc = true) :
    ∃ pre s1 m5,
      free_block h (some (4 + sumSz l1 + 4)) = (0, ⟨m5, h.allocSize⟩) ∧
      freeAbs l1 b l2 = pre ++ ⟨s1, false⟩ :: fwdTail l2 ∧
      wfB ⟨m5, h.allocSize⟩ (pre ++ ⟨s1, false⟩ :: fwdTail l2) = true ∧
      rd m5 (4 + sumSz pre + s1 - 4) = s1 ∧
      4 + sumSz pre + s1 ≤ 4 + h.allocSize ∧
      (noAdjB bl = true → noAdjB (pre ++ ⟨s1, false⟩ :: fwdTail l2) = true) := by
  obtain ⟨hrep1, h8, hpos, hhdr, -, hrest, hm1, hm2, hsum, hsent, hmax⟩ := wf_decomp hwf hdec
  rw [hb] at hhdr hrest
  have hA8 : h.allocSize % 8 = 0 := by omega
  obtain ⟨pre, s1, m3, hcore, hfa, hs18, hs1pos, hpre8, hsums, hrepp, hhdr3, htail, hsent3⟩ :=
    free_core_spec hrep1 h8 hpos hhdr hrest hm1 hsum hsent
  have hs1ge8 : 8 ≤ s1 := by omega
  simp only [free_block]
  rw [if_neg (by omega : ¬ ((4 + sumSz l1 + 4) % 8 ≠ 0))]
  rw [if_neg (by omega : ¬ ((4 + sumSz l1 + 4) < 4 ∨ 4 + h.allocSize ≤ 4 + sumSz l1 + 4))]
  have he0 : 4 + sumSz l1 + 4 - 4 = 4 + sumSz l1 := by omega
  rw [he0]
  have hodd : ¬ ((rd h.mem (4 + sumSz l1)) &&& 1 = 0) := by
    rw [and_one, hhdr]
    simp only [Bool.toNat_true]
    omega
  rw [if_neg hodd, hcore]
  dsimp only
  rcases htail with ⟨hftnil, hend⟩ | ⟨d, tl, pd, hft, hd8, hdpos, hdhdr, hdftr, hdrest⟩
  · -- the merged block reaches the sentinel
    rw [hftnil] at hsums hfa ⊢
    have hz : sumSz ([] : List Blk) = 0 := rfl
    have hcond4 : ¬ (sizeBits (rd m3 (4 + sumSz pre + s1)) ≠ 0) := by
      have he : 4 + sumSz pre + s1 = 4 + h.allocSize := by omega
      rw [he, hsent3, sizeBits_eq]
      omega
    rw [if_neg hcond4]
    rw [if_pos (by omega : 4 + sumSz pre + s1 - 4 < 4 + h.allocSize)]
    refine ⟨pre, s1, _, rfl, hfa, ?_, by rw [rd_wr_self], by omega, ?_⟩
    · rw [wfB_iff]
      dsimp only
      refine ⟨?_, ?_, ?_, hmax⟩
      · rw [reprSeg_append, Bool.and_eq_true]
        constructor
        · refine reprSeg_frame_above hrepp (le_refl _) (fun x hx => ?_)
          rw [rd_wr_ne m3 (4 + sumSz pre + s1 - 4) x (by omega)]
        · rw [reprSeg_cons_mk]
          refine ⟨hs18, show 0 < s1 by omega, ?_, ?_, by rfl⟩
          · rw [rd_wr_ne m3 (4 + sumSz pre + s1 - 4) (4 + sumSz pre) (by omega), hhdr3]
          · intro hf
            rw [rd_wr_self]
      · rw [sumSz_append]
        have : sumSz ((⟨s1, false⟩ : Blk) :: []) = s1 + 0 := rfl
        omega
      · rw [rd_wr_ne m3 (4 + sumSz pre + s1 - 4) (4 + h.allocSize) (by omega)]
        exact hsent3
    · intro hnadj
      rw [← hfa]
      rw [hdec] at hnadj
      exact noAdjB_freeAbs hnadj
  · -- a real successor block follows the merged block
    have hsft : sumSz (fwdTail l2) = d.size + sumSz tl := by rw [hft]; rfl
    have hcond4 : sizeBits (rd m3 (4 + sumSz pre + s1)) ≠ 0 := by
      rw [hdhdr, sizeBits_eq]
      have := Bool.toNat_le pd
      have := Bool.toNat_le d.alloc
      omega
    rw [if_pos hcond4]
    have hm4v : andNot2 (rd m3 (4 + sumSz pre + s1)) = d.size + d.alloc.toNat := by
      rw [andNot2_eq, hdhdr]
      have := Bool.toNat_le pd
      have := Bool.toNat_le d.alloc
      omega
    rw [hm4v]
    rw [if_pos (by omega : 4 + sumSz pre + s1 - 4 < 4 + h.allocSize)]
    refine ⟨pre, s1, _, rfl, hfa, ?_, ?_, by omega, ?_⟩
    · rw [wfB_iff]
      dsimp only
      refine ⟨?_, ?_, ?_, hmax⟩
      · rw [reprSeg_append, Bool.and_eq_true]
        constructor
        · refine reprSeg_frame_above hrepp (le_refl _) (fun x hx => ?_)
          rw [rd_wr_ne _ (4 + sumSz pre + s1 - 4) x (by omega),
            rd_wr_ne m3 (4 + sumSz pre + s1) x (by omega)]
        · rw [reprSeg_cons_mk]
          refine ⟨hs18, show 0 < s1 by omega, ?_, ?_, ?_⟩
          · rw [rd_wr_ne _ (4 + sumSz pre + s1 - 4) (4 + sumSz pre) (by omega),
              rd_wr_ne m3 (4 + sumSz pre + s1) (4 + sumSz pre) (by omega), hhdr3]
          · intro hf
            rw [rd_wr_self]
          · rw [hft, reprSeg_cons]
            refine ⟨hd8, show 0 < d.size from hdpos, ?_, ?_, ?_⟩
            · rw [rd_wr_ne _ (4 + sumSz pre + s1 - 4) (4 + sumSz pre + s1) (by omega),
                rd_wr_self]
              simp
            · intro hf
              rw [rd_wr_ne _ (4 + sumSz pre + s1 - 4) (4 + sumSz pre + s1 + d.size - 4)
                  (by omega),
                rd_wr_ne m3 (4 + sumSz pre + s1) (4 + sumSz pre + s1 + d.size - 4) (by omega)]
              exact hdftr hf
            · refine reprSeg_frame_below hdrest (le_refl _) (fun x hx => ?_)
              rw [rd_wr_ne _ (4 + sumSz pre + s1 - 4) x (by omega),
                rd_wr_ne m3 (4 + sumSz pre + s1) x (by omega)]
      · rw [sumSz_append]
        have : sumSz ((⟨s1, false⟩ : Blk) :: fwdTail l2) = s1 + sumSz (fwdTail l2) := rfl
        omega
      · rw [rd_wr_ne _ (4 + sumSz pre + s1 - 4) (4 + h.allocSize) (by omega),
          rd_wr_ne m3 (4 + sumSz pre + s1) (4 + h.allocSize) (by omega)]
        exact hsent3
    · rw [rd_wr_self]
    · intro hnadj
      rw [← hfa]
      rw [hdec] at hnadj
      exact noAdjB_freeAbs hnadj

/-! ## Reading the chain out of a well-formed heap -/

theorem chainB_of_reprSeg {m : Mem} {hEnd : Nat} (hsent : rd m hEnd = 1) :
    ∀ (bl : List Blk) (off : Nat) (p : Bool) (fuel : Nat),
    reprSeg m bl off p = true → off + sumSz bl = hEnd → bl.length < fuel →
    chainB m hEnd fuel off = some (blkHdrs m bl off) := by
  intro bl
  induction bl with
  | nil =>
      intro off p fuel hrep hsum hfuel
      have hz : sumSz ([] : List Blk) = 0 := rfl
      have hoff : off = hEnd := by omega
      cases fuel with
      | zero => omega
      | succ fuel =>
          rw [chainB, if_pos hoff]
          rw [hoff, hsent]
          rfl
  | cons b bs ih =>
      intro off p fuel hrep hsum hfuel
      rw [reprSeg_cons] at hrep
      obtain ⟨h8, hpos, hhdr, hftr, hrest⟩ := hrep
      have hs : sumSz (b :: bs) = b.size + sumSz bs := rfl
      have hm2 := reprSeg_sumSz_mod8 hrest
      cases fuel with
      | zero => simp at hfuel
      | succ fuel =>
          have hne : off ≠ hEnd := by omega
          have hnlt : ¬ hEnd < off := by omega
          rw [chainB, if_neg hne, if_neg hnlt]
          have hsb : sizeBits (rd m off) = b.size := by
            rw [sizeBits_eq, hhdr]
            have := Bool.toNat_le p
            have := Bool.toNat_le b.alloc
            omega
          rw [hsb, if_neg (by omega : ¬ b.size = 0)]
          rw [ih (off + b.size) b.alloc fuel hrest (by omega)
            (by simp at hfuel; omega)]
          rfl

/-- Membership in the header list of a laid-out block list. -/
theorem blkHdrs_mem {m : Mem} :
    ∀ {bl : List Blk} {off : Nat} {p : Bool} {o st : Nat},
    reprSeg m bl off p = true → (o, st) ∈ blkHdrs m bl off →
    ∃ l1 b l2, bl = l1 ++ b :: l2 ∧ o = off + sumSz l1 ∧
      st = rd m o ∧ st &&& 1 = b.alloc.toNat := by
  intro bl
  induction bl with
  | nil => intro off p o st _ hmem; simp [blkHdrs] at hmem
  | cons b bs ih =>
      intro off p o st hrep hmem
      rw [reprSeg_cons] at hrep
      obtain ⟨h8, hpos, hhdr, hftr, hrest⟩ := hrep
      simp only [blkHdrs, List.mem_cons] at hmem
      rcases hmem with heq | hmem
      · rw [Prod.mk.injEq] at heq
        obtain ⟨rfl, rfl⟩ := heq
        refine ⟨[], b, bs, rfl, by simp [sumSz], rfl, ?_⟩
        rw [hhdr, and_one]
        have := Bool.toNat_le p
        have := Bool.toNat_le b.alloc
        omega
      · obtain ⟨l1, c, l2, hdec, ho, hst, hand⟩ := ih hrest hmem
        refine ⟨b :: l1, c, l2, by simp [hdec], ?_, hst, hand⟩
        have : sumSz (b :: l1) = b.size + sumSz l1 := rfl
        omega

/-- Decoding the header list gives back the abstract blocks. -/
theorem blkHdrs_decode {m : Mem} :
    ∀ {bl : List Blk} {off : Nat} {p : Bool},
    reprSeg m bl off p = true →
    (blkHdrs m bl off).map (fun ob => (⟨sizeBits ob.2, ob.2 &&& 1 = 1⟩ : Blk)) = bl := by
  intro bl
  induction bl with
  | nil => intro off p _; rfl
  | cons b bs ih =>
      intro off p hrep
      rw [reprSeg_cons] at hrep
      obtain ⟨h8, hpos, hhdr, hftr, hrest⟩ := hrep
      simp only [blkHdrs, List.map_cons]
      rw [ih hrest]
      have htp := Bool.toNat_le p
      have hsb : sizeBits (rd m off) = b.size := by
        rw [sizeBits_eq, hhdr]
        have := Bool.toNat_le b.alloc
        omega
      have hab : ((rd m off &&& 1 = 1) : Bool) = b.alloc := by
        rw [and_one, hhdr]
        cases b.alloc <;> simp <;> omega
      rw [hsb, hab]

/-- A well-formed heap passes the chain-integrity check. -/
theorem chainOk_of_wf {h : Heap} {bl : List Blk} (hwf : wfB h bl = true) :
    chainOkB h = true := by
  rw [wfB_iff] at hwf
  obtain ⟨hrep, hsum, hsent, hmax⟩ := hwf
  have hlen := sumSz_ge_len hrep
  rw [chainOkB, chainB_of_reprSeg hsent bl 4 true _ hrep (by omega) (by omega)]
  rfl

/-- A well-formed heap with no adjacent free blocks passes the chain-level
adjacency check. -/
theorem chainNoAdj_of_wf {h : Heap} {bl : List Blk} (hwf : wfB h bl = true)
    (hnadj : noAdjB bl = true) : chainNoAdjFreeB h = true := by
  rw [wfB_iff] at hwf
  obtain ⟨hrep, hsum, hsent, hmax⟩ := hwf
  have hlen := sumSz_ge_len hrep
  rw [chainNoAdjFreeB, chainB_of_reprSeg hsent bl 4 true _ hrep (by omega) (by omega)]
  show noAdjB ((blkHdrs h.mem bl 4).map
    (fun ob => (⟨sizeBits ob.2, ob.2 &&& 1 = 1⟩ : Blk))) = true
  rw [blkHdrs_decode hrep]
  exact hnadj

/-- An in-contract `release` argument corresponds to an allocated block of
the abstraction. -/
theorem isAllocPayload_decomp {h : Heap} {bl : List Blk} {q : Nat}
    (hwf : wfB h bl = true) (hq : isAllocPayload h q = true) :
    ∃ l1 b l2, bl = l1 ++ b :: l2 ∧ b.alloc = true ∧ q = 4 + sumSz l1 + 4 := by
  have hwf' := hwf
  rw [wfB_iff] at hwf'
  obtain ⟨hrep, hsum, hsent, hmax⟩ := hwf'
  have hlen := sumSz_ge_len hrep
  rw [isAllocPayload, chainB_of_reprSeg hsent bl 4 true _ hrep (by omega) (by omega)] at hq
  simp only [List.any_eq_true, Bool.and_eq_true, decide_eq_true_eq] at hq
  obtain ⟨ob, hmem, hq4, hodd⟩ := hq
  obtain ⟨l1, b, l2, hdec, ho, hst, hand⟩ := blkHdrs_mem hrep hmem
  refine ⟨l1, b, l2, hdec, ?_, ?_⟩
  · have : b.alloc.toNat = 1 := by rw [← hand, hodd]
    cases hba : b.alloc
    · rw [hba] at this; simp at this
    · rfl
  · omega

/-! ## Initialization -/

/-- A successful first `init_heap` produces a well-formed heap made of one
free block (header `allocSize + 2`: p-bit set, a-bit clear; footer equal to
the size) followed by the sentinel word 1, with the padding word zero. -/
theorem init_wf {ps : Nat} {n : Int} {h0 : Heap}
    (hps8 : ps % 8 = 0) (hps : 16 ≤ ps) (hbound : n.toNat + ps < 2147483640)
    (hinit : init_heap ps n = some h0) :
    wfB h0 [⟨h0.allocSize, false⟩] = true ∧
    h0.allocSize = n.toNat + (ps - n.toNat % ps) % ps - 8 ∧
    rd h0.mem 4 = h0.allocSize + 2 ∧
    rd h0.mem (4 + h0.allocSize - 4) = h0.allocSize ∧
    rd h0.mem (4 + h0.allocSize) = 1 ∧
    rd h0.mem 0 = 0 := by
  simp only [init_heap] at hinit
  by_cases hn : n ≤ 0
  · rw [if_pos hn] at hinit
    cases hinit
  · rw [if_neg hn] at hinit
    rw [Option.some.injEq] at hinit
    subst hinit
    dsimp only
    have hps0 : 0 < ps := by omega
    have hrlt := Nat.mod_lt n.toNat hps0
    have hkey : (n.toNat + (ps - n.toNat % ps) % ps) % ps = 0 ∧
        ps ≤ n.toNat + (ps - n.toNat % ps) % ps := by
      by_cases hz : n.toNat % ps = 0
      · have hpad0 : (ps - n.toNat % ps) % ps = 0 := by
          rw [hz, Nat.sub_zero, Nat.mod_self]
        have hnpos : 0 < n.toNat := by omega
        have hge := Nat.le_of_dvd hnpos (Nat.dvd_of_mod_eq_zero hz)
        constructor
        · rw [hpad0, Nat.add_zero]
          exact hz
        · rw [hpad0]
          omega
      · have hlt : ps - n.toNat % ps < ps := by omega
        have hpad : (ps - n.toNat % ps) % ps = ps - n.toNat % ps := Nat.mod_eq_of_lt hlt
        constructor
        · rw [hpad]
          have hdm := Nat.div_add_mod n.toNat ps
          have he : n.toNat + (ps - n.toNat % ps) = ps * (n.toNat / ps + 1) := by
            have : ps * (n.toNat / ps + 1) = ps * (n.toNat / ps) + ps := by ring
            omega
          rw [he, Nat.mul_mod_right]
        · rw [hpad]
          have hmle := Nat.mod_le n.toNat ps
          omega
    have hreg8 : (n.toNat + (ps - n.toNat % ps) % ps) % 8 = 0 := by
      have hdvd : ps ∣ (n.toNat + (ps - n.toNat % ps) % ps) :=
        Nat.dvd_of_mod_eq_zero hkey.1
      have h8ps : (8 : Nat) ∣ ps := Nat.dvd_of_mod_eq_zero hps8
      have h8reg : (8 : Nat) ∣ (n.toNat + (ps - n.toNat % ps) % ps) :=
        dvd_trans h8ps hdvd
      obtain ⟨k, hk⟩ := h8reg
      rw [hk]
      omega
    have hregge : ps ≤ n.toNat + (ps - n.toNat % ps) % ps := hkey.2
    have hpadlt : (ps - n.toNat % ps) % ps < ps := Nat.mod_lt _ hps0
    -- abbreviate the rounded region and the usable size
    have hA8 : (n.toNat + (ps - n.toNat % ps) % ps - 8) % 8 = 0 := by omega
    have hAge : 8 ≤ n.toNat + (ps - n.toNat % ps) % ps - 8 := by omega
    have hAlt : 4 + (n.toNat + (ps - n.toNat % ps) % ps - 8) < 2147483647 := by omega
    have hr1 : rd (wr (fun _ => 0) (4 + (n.toNat + (ps - n.toNat % ps) % ps - 8)) 1) 4
        = 0 := by
      rw [rd_wr_ne _ _ 4 (by omega)]
      rfl
    refine ⟨?_, rfl, ?_, ?_, ?_, ?_⟩
    · rw [wfB_iff]
      dsimp only
      refine ⟨?_, ?_, ?_, hAlt⟩
      · rw [reprSeg_cons_mk]
        refine ⟨hA8, by omega, ?_, ?_, by rfl⟩
        · rw [rd_wr_ne _ (4 + (n.toNat + (ps - n.toNat % ps) % ps - 8) - 4) 4 (by omega),
            rd_wr_self, rd_wr_self]
          simp
        · intro hf
          rw [rd_wr_self]
      · have : sumSz [(⟨n.toNat + (ps - n.toNat % ps) % ps - 8, false⟩ : Blk)]
            = (n.toNat + (ps - n.toNat % ps) % ps - 8) + 0 := rfl
        omega
      · rw [rd_wr_ne _ (4 + (n.toNat + (ps - n.toNat % ps) % ps - 8) - 4)
            (4 + (n.toNat + (ps - n.toNat % ps) % ps - 8)) (by omega),
          rd_wr_ne _ 4 (4 + (n.toNat + (ps - n.toNat % ps) % ps - 8)) (by omega),
          rd_wr_ne _ 4 (4 + (n.toNat + (ps - n.toNat % ps) % ps - 8)) (by omega),
          rd_wr_self]
    · rw [rd_wr_ne _ (4 + (n.toNat + (ps - n.toNat % ps) % ps - 8) - 4) 4 (by omega),
        rd_wr_self, rd_wr_self]
    · rw [rd_wr_self]
    · rw [rd_wr_ne _ (4 + (n.toNat + (ps - n.toNat % ps) % ps - 8) - 4)
          (4 + (n.toNat + (ps - n.toNat % ps) % ps - 8)) (by omega),
        rd_wr_ne _ 4 (4 + (n.toNat + (ps - n.toNat % ps) % ps - 8)) (by omega),
        rd_wr_ne _ 4 (4 + (n.toNat + (ps - n.toNat % ps) % ps - 8)) (by omega),
        rd_wr_self]
    · rw [rd_wr_ne _ (4 + (n.toNat + (ps - n.toNat % ps) % ps - 8) - 4) 0 (by omega),
        rd_wr_ne _ 4 0 (by omega), rd_wr_ne _ 4 0 (by omega),
        rd_wr_ne _ (4 + (n.toNat + (ps - n.toNat % ps) % ps - 8)) 0 (by omega)]
      rfl

/-! ## Evaluating `freeAbs` -/

/-- With an allocated (or absent) predecessor, no backward merge happens. -/
theorem freeAbs_keep {l1 : List Blk} (hout : outP l1 true = true) (b : Blk) (l2 : List Blk) :
    freeAbs l1 b l2 = l1 ++ ⟨fwdSz b l2, false⟩ :: fwdTail l2 := by
  rcases List.eq_nil_or_concat l1 with rfl | ⟨l1', a, rfl⟩
  · rfl
  · rw [List.concat_eq_append] at hout ⊢
    rw [outP_concat] at hout
    simp only [freeAbs, List.getLast?_concat]
    rw [if_pos hout]

/-- Freeing a block whose neighbors are allocated restores the original
block list. -/
theorem freeAbs_roundtrip {l1 l2 : List Blk} {b : Blk}
    (hnadj : noAdjB (l1 ++ b :: l2) = true) (hb : b.alloc = false) :
    freeAbs l1 ⟨b.size, true⟩ l2 = l1 ++ b :: l2 := by
  have hout := outP_of_noAdj hnadj hb
  rw [freeAbs_keep hout]
  have hb' : b = ⟨b.size, false⟩ := by
    cases b with
    | mk s al => simp only at hb; rw [hb]
  cases l2 with
  | nil =>
      rw [show fwdSz ⟨b.size, true⟩ [] = b.size from rfl,
        show fwdTail ([] : List Blk) = [] from rfl, ← hb']
  | cons c cs =>
      have hca : c.alloc = true := by
        rw [noAdjB_iff_chain, List.chain'_append, List.chain'_cons] at hnadj
        rcases hnadj.2.1.1 with h | h
        · rw [hb] at h; cases h
        · exact h
      have h1 : b.size + (if c.alloc then 0 else c.size) = b.size := by
        rw [hca]
        simp
      have h2 : (if c.alloc then c :: cs else cs) = c :: cs := by
        rw [hca]
        simp
      rw [show fwdSz ⟨b.size, true⟩ (c :: cs) = b.size + (if c.alloc then 0 else c.size)
          from rfl, show fwdTail (c :: cs) = if c.alloc then c :: cs else cs from rfl,
        h1, h2, ← hb']

/-- Freeing the low part of a split (its free remainder right after it, its
original neighbors allocated) restores the original block list. -/
theorem freeAbs_split_roundtrip {l1 l2 : List Blk} {b : Blk} {sz : Nat}
    (hnadj : noAdjB (l1 ++ b :: l2) = true) (hb : b.alloc = false)
    (hle : sz ≤ b.size) :
    freeAbs l1 ⟨sz, true⟩ (⟨b.size - sz, false⟩ :: l2) = l1 ++ b :: l2 := by
  have hout := outP_of_noAdj hnadj hb
  rw [freeAbs_keep hout]
  have hb' : b = ⟨b.size, false⟩ := by
    cases b with
    | mk s al => simp only at hb; rw [hb]
  rw [show fwdSz ⟨sz, true⟩ (⟨b.size - sz, false⟩ :: l2) = sz + (b.size - sz) from rfl,
    show fwdTail (⟨b.size - sz, false⟩ :: l2) = l2 from rfl]
  have : sz + (b.size - sz) = b.size := by omega
  rw [this, ← hb']

/-! ## The state after a successful `alloc` -/

/-- A successful `alloc` on an invariant heap: the chosen free block is
replaced by an allocated block of the required size (split when strictly
larger), the result is the block's payload, and the invariant holds of the
new block list. -/
theorem alloc_state {h : Heap} {bl : List Blk} {n : Int} {o s : Nat}
    (hinv : invB h bl = true) (hn : 1 ≤ n)
    (hfit : bestFitSpec (reqSize n) bl 4 none = some (o, s)) :
    ∃ l1 b l2 nbl,
      bl = l1 ++ b :: l2 ∧ b.alloc = false ∧ b.size = s ∧ o = 4 + sumSz l1 ∧
      reqSize n ≤ s ∧
      (alloc h n).1 = some (o + 4) ∧
      (alloc h n).2.allocSize = h.allocSize ∧
      (s = reqSize n ∧ nbl = l1 ++ ⟨s, true⟩ :: l2 ∨
       reqSize n < s ∧ nbl = l1 ++ ⟨reqSize n, true⟩ :: ⟨s - reqSize n, false⟩ :: l2) ∧
      wfB (alloc h n).2 nbl = true ∧ noAdjB nbl = true := by
  rw [invB_iff] at hinv
  obtain ⟨hwf, hnadj⟩ := hinv
  rcases bestFitSpec_mem bl 4 none o s hfit with hacc | ⟨l1, b, l2, hdec, ho, hbfree, hbs, hsz⟩
  · cases hacc
  obtain ⟨hrep1, h8, hpos, hhdr, hftr, hrest, hm1, hm2, hsum, hsent, hmax⟩ := wf_decomp hwf hdec
  rw [hbfree] at hhdr hrest
  have hnadj' : noAdjB (l1 ++ b :: l2) = true := by rw [← hdec]; exact hnadj
  by_cases hse : s = reqSize n
  · rw [hse] at hfit
    have hall := alloc_eq_found hwf hn hfit
    refine ⟨l1, b, l2, l1 ++ ⟨s, true⟩ :: l2, hdec, hbfree, hbs, ho, hsz,
      by rw [hall], by rw [hall], Or.inl ⟨hse, rfl⟩, ?_, noAdjB_mid hnadj' rfl⟩
    rw [hall, ho]
    have := exact_branch_wf hrep1 h8 hpos hhdr hrest hm1 hsum hsent hmax
    rw [hbs] at this
    exact this
  · have hlt : reqSize n < s := by omega
    have hall := alloc_eq_split hwf hn hfit hse
    refine ⟨l1, b, l2, l1 ++ ⟨reqSize n, true⟩ :: ⟨s - reqSize n, false⟩ :: l2, hdec,
      hbfree, hbs, ho, hsz, by rw [hall], by rw [hall], Or.inr ⟨hlt, rfl⟩, ?_,
      noAdjB_split hnadj' hbfree rfl⟩
    rw [hall, ho]
    have := split_branch_wf hrep1 h8 hpos (outP_of_noAdj hnadj' hbfree) hhdr hrest hm1
      hsum hsent hmax (reqSize_mod8 hn) (reqSize_ge8 hn) (by omega)
    rw [hbs] at this
    exact this

/-- Every `alloc` call preserves the invariant (for some block list). -/
theorem alloc_inv {h : Heap} {bl : List Blk} (hinv : invB h bl = true) (n : Int) :
    ∃ bl', invB (alloc h n).2 bl' = true := by
  by_cases hn : n < 1
  · exact ⟨bl, by rw [alloc_lt_one hn]; exact hinv⟩
  · have hwf : wfB h bl = true := by
      rw [invB_iff] at hinv; exact hinv.1
    have hn1 : 1 ≤ n := by omega
    cases hbf : bestFitSpec (reqSize n) bl 4 none with
    | none => exact ⟨bl, by rw [alloc_none hwf hn1 hbf]; exact hinv⟩
    | some os =>
        obtain ⟨o, s⟩ := os
        obtain ⟨l1, b, l2, nbl, -, -, -, -, -, -, -, -, hwf', hnadj'⟩ :=
          alloc_state hinv hn1 hbf
        exact ⟨nbl, by rw [invB_iff]; exact ⟨hwf', hnadj'⟩⟩

/-- Every in-contract `free_block` call preserves the invariant. -/
theorem free_inv {h : Heap} {bl : List Blk} {q : Nat} (hinv : invB h bl = true)
    (hq : isAllocPayload h q = true) :
    ∃ bl', invB (free_block h (some q)).2 bl' = true := by
  rw [invB_iff] at hinv
  obtain ⟨hwf, hnadj⟩ := hinv
  obtain ⟨l1, b, l2, hdec, hb, hq4⟩ := isAllocPayload_decomp hwf hq
  obtain ⟨pre, s1, m5, heq, hfa, hwf', hftr, hbnd, hnadj'⟩ := free_ok hwf hdec hb
  subst hq4
  rw [heq]
  exact ⟨pre ++ ⟨s1, false⟩ :: fwdTail l2,
    by rw [invB_iff]; exact ⟨hwf', hnadj' hnadj⟩⟩

/-! ## Operation sequences preserve the invariant -/

theorem run_append (l1 l2 : List Op) : ∀ h : Heap, run h (l1 ++ l2) = run (run h l1) l2 := by
  induction l1 with
  | nil => intro h; rfl
  | cons op ops ih =>
      intro h
      cases op with
      | a n => exact ih (alloc h n).2
      | f p => exact ih (free_block h p).2

theorem GoodSeq_append (l1 l2 : List Op) :
    ∀ h : Heap, GoodSeq h (l1 ++ l2) → GoodSeq h l1 ∧ GoodSeq (run h l1) l2 := by
  induction l1 with
  | nil => intro h hg; exact ⟨trivial, hg⟩
  | cons op ops ih =>
      intro h hg
      cases op with
      | a n =>
          have := ih (alloc h n).2 hg
          exact ⟨this.1, this.2⟩
      | f p =>
          obtain ⟨hex, hg'⟩ := hg
          have := ih (free_block h p).2 hg'
          exact ⟨⟨hex, this.1⟩, this.2⟩

/-- Any in-contract operation sequence preserves the invariant. -/
theorem run_inv : ∀ (ops : List Op) (h : Heap) (bl : List Blk), invB h bl = true →
    GoodSeq h ops → ∃ bl', invB (run h ops) bl' = true := by
  intro ops
  induction ops with
  | nil => intro h bl hinv _; exact ⟨bl, hinv⟩
  | cons op ops ih =>
      intro h bl hinv hgood
      cases op with
      | a n =>
          obtain ⟨bl', hinv'⟩ := alloc_inv hinv n
          exact ih _ _ hinv' hgood
      | f p =>
          obtain ⟨⟨q, rfl, hq⟩, hgood'⟩ := hgood
          obtain ⟨bl', hinv'⟩ := free_inv hinv hq
          exact ih _ _ hinv' hgood'

/-- The invariant of a freshly initialized heap. -/
theorem init_inv {ps : Nat} {n : Int} {h0 : Heap}
    (hps8 : ps % 8 = 0) (hps : 16 ≤ ps) (hbound : n.toNat + ps < 2147483640)
    (hinit : init_heap ps n = some h0) :
    invB h0 [⟨h0.allocSize, false⟩] = true := by
  obtain ⟨hwf, -⟩ := init_wf hps8 hps hbound hinit
  rw [invB_iff]
  exact ⟨hwf, rfl⟩

/-! ## The claims -/

/-- C1: for every well-formed heap and request `n ≥ 1`, `alloc` returns the
payload of the block chosen by the spec's best-fit policy (`bestFitSpec`:
among the free blocks of size at least the required size, the smallest, a
strictly smaller size replacing the current best so that ties go to the
first encountered); and on the spec's instance of free blocks {16, 40, 24}
with a request requiring 24 bytes (`BF`), the 24-byte block at offset 60 is
chosen and the 40-byte block's header is untouched, while without the
24-byte block (`BF2`) the 40-byte block is chosen and split. -/
theorem claim_C1 :
    (∀ (h : Heap) (bl : List Blk) (n : Int), wfB h bl = true → 1 ≤ n →
      (alloc h n).1 = (bestFitSpec (reqSize n) bl 4 none).map (fun os => os.1 + 4)) ∧
    reqSize 20 = 24 ∧
    wfB BF [⟨16, false⟩, ⟨40, false⟩, ⟨24, false⟩] = true ∧
    bestFitSpec 24 [⟨16, false⟩, ⟨40, false⟩, ⟨24, false⟩] 4 none = some (60, 24) ∧
    (alloc BF 20).1 = some 64 ∧
    rd (alloc BF 20).2.mem 60 = 24 + 1 ∧
    rd (alloc BF 20).2.mem 20 = 40 ∧
    wfB BF2 [⟨16, false⟩, ⟨40, false⟩] = true ∧
    bestFitSpec 24 [⟨16, false⟩, ⟨40, false⟩] 4 none = some (20, 40) ∧
    (alloc BF2 20).1 = some 24 ∧
    rd (alloc BF2 20).2.mem 20 = 24 + 1 ∧
    rd (alloc BF2 20).2.mem 44 = 16 ∧
    rd (alloc BF2 20).2.mem 56 = 16 :=
  ⟨fun h bl n hwf hn => alloc_result hwf hn,
    rfl, rfl, rfl, rfl, rfl, rfl, rfl, rfl, rfl, rfl, rfl, rfl⟩

/-- C2: when `alloc` selects a free block strictly larger than the required
size, it splits it: the low part keeps the original p-bit (which the
invariant forces to 1) and gets a-bit 1, the remainder right after it has
header `remainder + 2` (p-bit 1, a-bit 0) and a footer holding the
remainder size, and the returned payload is the low header's address plus
4. -/
theorem claim_C2 {h : Heap} {bl : List Blk} {n : Int} {o s : Nat}
    (hinv : invB h bl = true) (hn : 1 ≤ n)
    (hfit : bestFitSpec (reqSize n) bl 4 none = some (o, s)) (hne : s ≠ reqSize n) :
    (alloc h n).1 = some (o + 4) ∧
    (rd h.mem o) &&& 2 = 2 ∧
    rd (alloc h n).2.mem o = reqSize n + ((rd h.mem o) &&& 2) + 1 ∧
    rd (alloc h n).2.mem (o + reqSize n) = (s - reqSize n) + 2 ∧
    rd (alloc h n).2.mem (o + s - 4) = s - reqSize n := by
  obtain ⟨l1, b, l2, nbl, hdec, hbfree, hbs, ho, hge, hres1, hAsz, hcase, hwf', hnadj'⟩ :=
    alloc_state hinv hn hfit
  rcases hcase with ⟨hse, -⟩ | ⟨hlt, rfl⟩
  · exact absurd hse hne
  have hinv0 := hinv
  rw [invB_iff] at hinv0
  obtain ⟨hwf, hnadj⟩ := hinv0
  obtain ⟨-, h8, hpos, hhdr, -, -, hm1, -, -, -, -⟩ := wf_decomp hwf hdec
  have hout : outP l1 true = true :=
    outP_of_noAdj (show noAdjB (l1 ++ b :: l2) = true from hdec ▸ hnadj) hbfree
  have hpbit : (rd h.mem o) &&& 2 = 2 := by
    rw [ho, hhdr, hbfree, hout, and_two_val (by omega)]
    rfl
  obtain ⟨-, -, -, hhdr1, -, hrest1, -, -, -, -, -⟩ :=
    wf_decomp hwf' (rfl : l1 ++ (⟨reqSize n, true⟩ : Blk) :: ⟨s - reqSize n, false⟩ :: l2
      = l1 ++ ⟨reqSize n, true⟩ :: ⟨s - reqSize n, false⟩ :: l2)
  obtain ⟨-, -, -, hhdr2, hftr2, -, -, -, -, -, -⟩ :=
    wf_decomp hwf' (show l1 ++ (⟨reqSize n, true⟩ : Blk) :: ⟨s - reqSize n, false⟩ :: l2
      = (l1 ++ [⟨reqSize n, true⟩]) ++ ⟨s - reqSize n, false⟩ :: l2 by simp)
  have hsum2 : sumSz (l1 ++ [(⟨reqSize n, true⟩ : Blk)]) = sumSz l1 + reqSize n := by
    rw [sumSz_append]
    rfl
  have hout2 : outP (l1 ++ [(⟨reqSize n, true⟩ : Blk)]) true = true := by
    rw [outP_concat]
  refine ⟨hres1, hpbit, ?_, ?_, ?_⟩
  · rw [hpbit, ho, hhdr1, hout]
    rfl
  · rw [hout2, hsum2] at hhdr2
    have he : o + reqSize n = 4 + (sumSz l1 + reqSize n) := by omega
    rw [he, hhdr2]
    rfl
  · have hf := hftr2 rfl
    rw [hsum2] at hf
    have he : o + s - 4 = 4 + (sumSz l1 + reqSize n) + (s - reqSize n) - 4 := by omega
    rw [he, hf]

/-- Witness for C2: allocating 1 byte from the 24-byte free block of `G0`
splits it. -/
theorem claim_C2_witness :
    (alloc G0 1).1 = some (4 + 4) ∧
    (rd G0.mem 4) &&& 2 = 2 ∧
    rd (alloc G0 1).2.mem 4 = reqSize 1 + ((rd G0.mem 4) &&& 2) + 1 ∧
    rd (alloc G0 1).2.mem (4 + reqSize 1) = (24 - reqSize 1) + 2 ∧
    rd (alloc G0 1).2.mem (4 + 24 - 4) = 24 - reqSize 1 :=
  claim_C2 (show invB G0 [⟨24, false⟩] = true from rfl) (by decide)
    (show bestFitSpec (reqSize 1) [⟨24, false⟩] 4 none = some (4, 24) from rfl)
    (by decide)

/-- C4: on an invariant heap, `alloc` followed immediately by `free_block`
of the returned payload succeeds and restores every header word and every
free-block footer word of the arena (the footprint `fp bl 4`) to its
pre-allocation value, with the heap size unchanged. -/
theorem claim_C4 {h : Heap} {bl : List Blk} {n : Int} {p : Nat}
    (hinv : invB h bl = true) (hn : 1 ≤ n) (halloc : (alloc h n).1 = some p) :
    (free_block (alloc h n).2 (some p)).1 = 0 ∧
    (free_block (alloc h n).2 (some p)).2.allocSize = h.allocSize ∧
    ∀ a ∈ fp bl 4, rd (free_block (alloc h n).2 (some p)).2.mem a = rd h.mem a := by
  have hinv0 := hinv
  rw [invB_iff] at hinv0
  obtain ⟨hwf, hnadj⟩ := hinv0
  have hres := alloc_result hwf hn
  rw [halloc] at hres
  cases hbf : bestFitSpec (reqSize n) bl 4 none with
  | none => rw [hbf] at hres; cases hres
  | some os =>
    obtain ⟨o, s⟩ := os
    rw [hbf] at hres
    simp only [Option.map_some', Option.some.injEq] at hres
    obtain ⟨l1, b, l2, nbl, hdec, hbfree, hbs, ho, hge, hres1, hAsz, hcase, hwf', hnadj'⟩ :=
      alloc_state hinv hn hbf
    subst hres
    have hnadjo : noAdjB (l1 ++ b :: l2) = true := hdec ▸ hnadj
    have hrep : reprSeg h.mem bl 4 true = true := (wfB_iff.mp hwf).1
    rcases hcase with ⟨hse, rfl⟩ | ⟨hlt, rfl⟩
    · obtain ⟨pre, s1, m5, heq, hfa, hwf5, hftr5, hbnd5, hnadj5⟩ :=
        free_ok hwf' rfl rfl
      have hround : freeAbs l1 ⟨s, true⟩ l2 = l1 ++ b :: l2 := by
        rw [← hbs]
        exact freeAbs_roundtrip hnadjo hbfree
      have hlist : pre ++ ⟨s1, false⟩ :: fwdTail l2 = bl := by
        rw [← hfa, hround, ← hdec]
      rw [hlist] at hwf5
      have hpay : o + 4 = 4 + sumSz l1 + 4 := by omega
      rw [hpay, heq]
      refine ⟨rfl, hAsz, ?_⟩
      have hrep5 : reprSeg m5 bl 4 true = true := (wfB_iff.mp hwf5).1
      intro a ha
      exact reprSeg_det hrep hrep5 a ha
    · obtain ⟨pre, s1, m5, heq, hfa, hwf5, hftr5, hbnd5, hnadj5⟩ :=
        free_ok hwf' rfl rfl
      have hround : freeAbs l1 ⟨reqSize n, true⟩ (⟨s - reqSize n, false⟩ :: l2)
          = l1 ++ b :: l2 := by
        rw [← hbs]
        exact freeAbs_split_roundtrip hnadjo hbfree (by omega)
      have hlist : pre ++ ⟨s1, false⟩ :: fwdTail (⟨s - reqSize n, false⟩ :: l2) = bl := by
        rw [← hfa, hround, ← hdec]
      rw [hlist] at hwf5
      have hpay : o + 4 = 4 + sumSz l1 + 4 := by omega
      rw [hpay, heq]
      refine ⟨rfl, hAsz, ?_⟩
      have hrep5 : reprSeg m5 bl 4 true = true := (wfB_iff.mp hwf5).1
      intro a ha
      exact reprSeg_det hrep hrep5 a ha

/-- Witness for C4: allocate 1 byte on the 16-byte heap, release it, and
the free block's header word at offset 4 is restored. -/
theorem claim_C4_witness :
    (free_block (alloc H0 1).2 (some 8)).1 = 0 ∧
    (free_block (alloc H0 1).2 (some 8)).2.allocSize = H0.allocSize ∧
    rd (free_block (alloc H0 1).2 (some 8)).2.mem 4 = rd H0.mem 4 :=
  have h := claim_C4 (show invB H0 [⟨8, false⟩] = true from rfl) (by decide)
    (show (alloc H0 1).1 = some 8 from rfl)
  ⟨h.1, h.2.1, h.2.2 4 (by decide)⟩

/-- C3 (amended): in every successful in-contract release — including when
the merged block's end coincides exactly with the sentinel boundary — a
footer recording the final merged size is written at the merged block's
last 4 bytes; the write is never skipped, since the footer lies 4 bytes
before the block's end and hence always inside the usable arena. -/
theorem claim_C3 {h : Heap} {bl l1 l2 : List Blk} {b : Blk}
    (hwf : wfB h bl = true) (hdec : bl = l1 ++ b :: l2) (hb : b.alloc = true) :
    ∃ pre s1 m5,
      free_block h (some (4 + sumSz l1 + 4)) = (0, ⟨m5, h.allocSize⟩) ∧
      freeAbs l1 b l2 = pre ++ ⟨s1, false⟩ :: fwdTail l2 ∧
      rd m5 (4 + sumSz pre + s1 - 4) = s1 ∧
      4 + sumSz pre + s1 ≤ 4 + h.allocSize := by
  obtain ⟨pre, s1, m5, heq, hfa, -, hftr, hbnd, -⟩ := free_ok hwf hdec hb
  exact ⟨pre, s1, m5, heq, hfa, hftr, hbnd⟩

/-- Witness for C3 on `G2`: releasing the middle allocated block merges it
with the free block that ends at the sentinel boundary, and the footer is
written. -/
theorem claim_C3_witness :
    ∃ pre s1 m5,
      free_block G2 (some (4 + sumSz [(⟨8, true⟩ : Blk)] + 4)) = (0, ⟨m5, G2.allocSize⟩) ∧
      freeAbs [(⟨8, true⟩ : Blk)] ⟨8, true⟩ [⟨8, false⟩] = pre ++ ⟨s1, false⟩ :: fwdTail [⟨8, false⟩] ∧
      rd m5 (4 + sumSz pre + s1 - 4) = s1 ∧
      4 + sumSz pre + s1 ≤ 4 + G2.allocSize :=
  claim_C3 (show wfB G2 [⟨8, true⟩, ⟨8, true⟩, ⟨8, false⟩] = true from rfl)
    (show [(⟨8, true⟩ : Blk), ⟨8, true⟩, ⟨8, false⟩]
      = [(⟨8, true⟩ : Blk)] ++ ⟨8, true⟩ :: [⟨8, false⟩] from rfl) rfl

/-- C3 counterexample: on `G2` the released block's merged extent ends
exactly at the sentinel boundary (byte offset 28 = 4 + allocSize), yet the
footer at the merged block's last 4 bytes (offset 24) IS written: it
changes from 8 (the old successor footer) to the merged size 16.  The
spec's "skip if the merged block's end coincides with the sentinel
boundary" clause describes no behavior of the code. -/
theorem claim_C3_counterexample :
    rd G2.mem 12 = 8 + 2 + 1 ∧
    rd G2.mem 20 = 8 + 2 ∧
    rd G2.mem 24 = 8 ∧
    4 + G2.allocSize = 28 ∧
    (free_block G2 (some 16)).1 = 0 ∧
    rd G3.mem 12 = 16 + 2 ∧
    rd G3.mem 24 = 16 ∧
    rd G3.mem 28 = 1 :=
  ⟨rfl, rfl, rfl, rfl, rfl, rfl, rfl, rfl⟩

/-- C5: starting from a successfully initialized heap, after every
completed operation of any in-contract sequence of allocate/release calls
(every prefix of the sequence), walking the block chain from the arena
start by successive recorded sizes lands exactly on the sentinel word 1
with no overlap and no gap (`chainOkB`). -/
theorem claim_C5 (ps : Nat) (n : Int) {h0 : Heap}
    (hps8 : ps % 8 = 0) (hps : 16 ≤ ps) (hbound : n.toNat + ps < 2147483640)
    (hinit : init_heap ps n = some h0)
    (ops : List Op) (hgood : GoodSeq h0 ops) (k : Nat) :
    chainOkB (run h0 (ops.take k)) = true := by
  have hinv0 := init_inv hps8 hps hbound hinit
  have hg : GoodSeq h0 (ops.take k) :=
    (GoodSeq_append (ops.take k) (ops.drop k) h0
      (by rw [List.take_append_drop]; exact hgood)).1
  obtain ⟨bl', hinv'⟩ := run_inv (ops.take k) h0 _ hinv0 hg
  rw [invB_iff] at hinv'
  exact chainOk_of_wf hinv'.1

/-- Witness for C5: a 16-byte heap, one allocation and its release. -/
theorem claim_C5_witness :
    chainOkB (run H0 ([Op.a 1, Op.f (some 8)].take 2)) = true :=
  claim_C5 16 16 rfl (by decide) (by decide)
    (show init_heap 16 16 = some H0 from rfl)
    [Op.a 1, Op.f (some 8)] ⟨⟨8, rfl, rfl⟩, trivial⟩ 2

/-- C6: starting from a successfully initialized heap, after any
in-contract release call completes (the last operation of the run), no two
address-adjacent blocks of the chain are both free. -/
theorem claim_C6 (ps : Nat) (n : Int) {h0 : Heap}
    (hps8 : ps % 8 = 0) (hps : 16 ≤ ps) (hbound : n.toNat + ps < 2147483640)
    (hinit : init_heap ps n = some h0)
    (ops : List Op) (p : Option Nat)
    (hgood : GoodSeq h0 (ops ++ [Op.f p])) :
    chainNoAdjFreeB (run h0 (ops ++ [Op.f p])) = true := by
  have hinv0 := init_inv hps8 hps hbound hinit
  obtain ⟨hg1, hg2⟩ := GoodSeq_append ops [Op.f p] h0 hgood
  obtain ⟨bl1, hinv1⟩ := run_inv ops h0 _ hinv0 hg1
  obtain ⟨⟨q, rfl, hq⟩, -⟩ := hg2
  rw [invB_iff] at hinv1
  obtain ⟨hwf1, hnadj1⟩ := hinv1
  obtain ⟨l1, b, l2, hdec, hb, hq4⟩ := isAllocPayload_decomp hwf1 hq
  obtain ⟨pre, s1, m5, heq, hfa, hwf5, -, -, hnadj5⟩ := free_ok hwf1 hdec hb
  subst hq4
  have hrun : run h0 (ops ++ [Op.f (some (4 + sumSz l1 + 4))])
      = (free_block (run h0 ops) (some (4 + sumSz l1 + 4))).2 := by
    rw [run_append]
    rfl
  rw [hrun, heq]
  exact chainNoAdj_of_wf hwf5 (hnadj5 hnadj1)

/-- Witness for C6: a 16-byte heap, one allocation, then the release. -/
theorem claim_C6_witness :
    chainNoAdjFreeB (run H0 ([Op.a 1] ++ [Op.f (some 8)])) = true :=
  claim_C6 16 16 rfl (by decide) (by decide)
    (show init_heap 16 16 = some H0 from rfl)
    [Op.a 1] (some 8) ⟨⟨8, rfl, rfl⟩, trivial⟩

/-- C7: every failure path leaves the heap state unchanged (the returned
heap is the argument itself): `alloc` with `size < 1` or with no fitting
free block returns `none`, and `free_block` with a null, misaligned,
out-of-range, or not-currently-allocated pointer returns -1, all without
any write. -/
theorem claim_C7 :
    (∀ (h : Heap) (n : Int), n < 1 → alloc h n = (none, h)) ∧
    (∀ (h : Heap) (bl : List Blk) (n : Int), wfB h bl = true → 1 ≤ n →
      bestFitSpec (reqSize n) bl 4 none = none → alloc h n = (none, h)) ∧
    (∀ h : Heap, free_block h none = (-1, h)) ∧
    (∀ (h : Heap) (p : Nat), p % 8 ≠ 0 → free_block h (some p) = (-1, h)) ∧
    (∀ (h : Heap) (p : Nat), p < 4 ∨ 4 + h.allocSize ≤ p → free_block h (some p) = (-1, h)) ∧
    (∀ (h : Heap) (p : Nat), 4 ≤ p → p < 4 + h.allocSize →
      (rd h.mem (p - 4)) &&& 1 = 0 → free_block h (some p) = (-1, h)) := by
  refine ⟨fun h n hn => alloc_lt_one hn,
    fun h bl n hwf hn hbf => alloc_none hwf hn hbf,
    fun h => rfl, ?_, ?_, ?_⟩
  · intro h p hp
    simp only [free_block]
    rw [if_pos hp]
  · intro h p hp
    simp only [free_block]
    by_cases h8 : p % 8 ≠ 0
    · rw [if_pos h8]
    · rw [if_neg h8, if_pos hp]
  · intro h p hge hlt ha
    simp only [free_block]
    by_cases h8 : p % 8 ≠ 0
    · rw [if_pos h8]
    · rw [if_neg h8, if_neg (by omega : ¬ (p < 4 ∨ 4 + h.allocSize ≤ p)), if_pos ha]

/-- C8: a successful first `init_heap` yields exactly one free block whose
size is the page-rounded region minus the 8 reserved bytes, with header
`size + 2` (a-bit 0, p-bit 1), footer equal to the size, and the sentinel
word 1 right after it; the whole layout is well-formed. -/
theorem claim_C8 (ps : Nat) (n : Int) {h0 : Heap}
    (hps8 : ps % 8 = 0) (hps : 16 ≤ ps) (hbound : n.toNat + ps < 2147483640)
    (hinit : init_heap ps n = some h0) :
    wfB h0 [⟨h0.allocSize, false⟩] = true ∧
    h0.allocSize = n.toNat + (ps - n.toNat % ps) % ps - 8 ∧
    rd h0.mem 4 = h0.allocSize + 2 ∧
    rd h0.mem (4 + h0.allocSize - 4) = h0.allocSize ∧
    rd h0.mem (4 + h0.allocSize) = 1 := by
  obtain ⟨h1, h2, h3, h4, h5, -⟩ := init_wf hps8 hps hbound hinit
  exact ⟨h1, h2, h3, h4, h5⟩

/-- Witness for C8: `init_heap 16 16` produces the 8-byte free block. -/
theorem claim_C8_witness :
    wfB H0 [⟨H0.allocSize, false⟩] = true ∧
    H0.allocSize = (16 : Int).toNat + (16 - (16 : Int).toNat % 16) % 16 - 8 ∧
    rd H0.mem 4 = H0.allocSize + 2 ∧
    rd H0.mem (4 + H0.allocSize - 4) = H0.allocSize ∧
    rd H0.mem (4 + H0.allocSize) = 1 :=
  claim_C8 16 16 rfl (by decide) (by decide) (show init_heap 16 16 = some H0 from rfl)

/-- C9: every successful `alloc` on a well-formed heap returns a payload
offset that is a multiple of 8 (the mmap base is page-aligned, so the
returned address is 8-byte aligned). -/
theorem claim_C9 {h : Heap} {bl : List Blk} {n : Int} {p : Nat}
    (hwf : wfB h bl = true) (hn : 1 ≤ n) (halloc : (alloc h n).1 = some p) :
    p % 8 = 0 := by
  have hres := alloc_result hwf hn
  rw [halloc] at hres
  cases hbf : bestFitSpec (reqSize n) bl 4 none with
  | none => rw [hbf] at hres; cases hres
  | some os =>
    obtain ⟨o, s⟩ := os
    rw [hbf] at hres
    simp only [Option.map_some', Option.some.injEq] at hres
    rcases bestFitSpec_mem bl 4 none o s hbf with hacc | ⟨l1, b, l2, hdec, ho, -, -, -⟩
    · cases hacc
    obtain ⟨-, -, -, -, -, -, hm1, -, -, -, -⟩ := wf_decomp hwf hdec
    omega

/-- Witness for C9: the first allocation on the 16-byte heap returns
payload offset 8. -/
theorem claim_C9_witness : (8 : Nat) % 8 = 0 :=
  claim_C9 (show wfB H0 [⟨8, false⟩] = true from rfl) (by decide)
    (show (alloc H0 1).1 = some 8 from rfl)

/-- C10 (amended): releasing the arena's start address — the first block's
header address, byte offset 4 from the mapping — fails on EVERY heap with
result -1 and no mutation, because offset 4 is not a multiple of 8: the
8-byte-alignment check rejects it before the in-range and already-freed
checks run, and the padding word before it is never consulted. -/
theorem claim_C10 (h : Heap) : free_block h (some 4) = (-1, h) := by
  simp only [free_block]
  rw [if_pos (by decide : (4 : Nat) % 8 ≠ 0)]

/-- C10 counterexample: offset 4 is the first block's header on `H0`, yet
`4 % 8 ≠ 0`, so the pointer fails the alignment check — it is not "8-byte
aligned" as the claim asserts; and the call fails identically when the
padding word at offset 0 is overwritten with 1 (alloc-bit set), showing
the already-freed check on the padding word is not the operative
mechanism. -/
theorem claim_C10_counterexample :
    rd H0.mem 4 = H0.allocSize + 2 ∧
    (4 : Nat) % 8 ≠ 0 ∧
    free_block H0 (some 4) = (-1, H0) ∧
    free_block ⟨wr H0.mem 0 1, H0.allocSize⟩ (some 4)
      = (-1, ⟨wr H0.mem 0 1, H0.allocSize⟩) :=
  ⟨rfl, by decide, rfl, rfl⟩

end P3Heap
